import Mathlib

/-!
A verification development for the pygtrie trie library.

The Python implementation (pygtrie.py) is embedded shallowly:

* `_Node` becomes `Pygtrie.Node`: the Python attribute `value` holds either
  a stored value or the private `_SENTINEL` object (checked by identity), so
  it is modelled as `Option β` with `none` playing the role of `_SENTINEL`;
  the `children` dict becomes an insertion-ordered association list, matching
  Python dict semantics (assignment updates in place, `setdefault` appends).
* Exceptions (`KeyError` / `ShortKeyError`) become `Except Err`.
* The iterative loops of `_Node.iterate`, `_Node.__getstate__`,
  `_Node.__setstate__` (which use explicit heap stacks in Python only to
  avoid the interpreter's recursion limit) are written as the structurally
  equivalent recursions over the tree / command stream.
-/

namespace Pygtrie

/-- A single node of a trie: `_Node` from pygtrie.py.  `value = none` models
`value is _SENTINEL` (no value stored); children are kept in insertion
order exactly as a Python dict does. -/
inductive Node (α β : Type) : Type where
  | mk (value : Option β) (children : List (α × Node α β)) : Node α β

namespace Node

/-- The `value` slot of a node. -/
def value {α β : Type} : Node α β → Option β
  | mk v _ => v

/-- The `children` dict of a node, as an insertion-ordered association list. -/
def children {α β : Type} : Node α β → List (α × Node α β)
  | mk _ cs => cs

/-- `_Node.__bool__`: a node is truthy iff it has a value or has children. -/
def nonempty {α β : Type} : Node α β → Bool
  | mk v cs => v.isSome || !cs.isEmpty

@[simp] theorem value_mk {α β : Type} (v : Option β) (cs : List (α × Node α β)) :
    (Node.mk v cs).value = v := rfl

@[simp] theorem children_mk {α β : Type} (v : Option β) (cs : List (α × Node α β)) :
    (Node.mk v cs).children = cs := rfl

@[simp] theorem nonempty_mk {α β : Type} (v : Option β) (cs : List (α × Node α β)) :
    (Node.mk v cs).nonempty = (v.isSome || !cs.isEmpty) := rfl

end Node

variable {α β : Type}

/-- `d.get(step)` on a children dict. -/
def childGet [DecidableEq α] : List (α × Node α β) → α → Option (Node α β)
  | [], _ => none
  | (s, c) :: rest, k => if s = k then some c else childGet rest k

/-- `d[step] = node` on a children dict: update in place, else append —
Python dict insertion-order semantics (also what `setdefault` does when the
key is missing). -/
def childSet [DecidableEq α] : List (α × Node α β) → α → Node α β → List (α × Node α β)
  | [], k, n => [(k, n)]
  | (s, c) :: rest, k, n =>
    if s = k then (s, n) :: rest else (s, c) :: childSet rest k n

/-- `del d[step]` on a children dict. -/
def childDel [DecidableEq α] : List (α × Node α β) → α → List (α × Node α β)
  | [], _ => []
  | (s, c) :: rest, k => if s = k then rest else (s, c) :: childDel rest k

/-- The two `KeyError` flavours raised by the library: plain `KeyError`
(`notFound`) and its subclass `ShortKeyError` (`shortKey`). -/
inductive Err : Type where
  | notFound
  | shortKey
deriving DecidableEq

/-- `Trie._get_node(key)` with `create=False`: walk the path from `node`;
each step does `node = node.children.get(step)` followed by
`if not node: raise KeyError` — so both a missing child and a falsy
(empty) child abort the walk. -/
def getNode [DecidableEq α] : Node α β → List α → Option (Node α β)
  | n, [] => some n
  | n, s :: rest =>
    match childGet n.children s with
    | none => none
    | some c => if c.nonempty then getNode c rest else none

/-- The structural walk to the node of a path: like `_get_node` but
without the truthiness test — used to state which nodes exist in the raw
graph (the two walks agree on graphs satisfying the pruning invariant,
where no reachable node is falsy). -/
def nodeAt [DecidableEq α] : Node α β → List α → Option (Node α β)
  | n, [] => some n
  | n, s :: rest =>
    match childGet n.children s with
    | none => none
    | some c => nodeAt c rest

/-- `Trie._set(key, value, only_if_missing, clear_children)`: walks the path
with `create=True` (`children.setdefault(step, _Node())`), then on the final
node assigns the value (unless `only_if_missing` and a value is present)
and clears the children if `clear_children`. -/
def setPath [DecidableEq α] : Node α β → List α → β → Bool → Bool → Node α β
  | .mk v cs, [], x, oim, cc =>
    .mk (if oim && v.isSome then v else some x) (if cc then [] else cs)
  | .mk v cs, s :: rest, x, oim, cc =>
    .mk v (childSet cs s (setPath ((childGet cs s).getD (.mk none [])) rest x oim cc))

/-- `Trie.__getitem__` on a plain (non-slice) key: `KeyError` if
`_get_node` fails, `ShortKeyError` if the node exists but carries no
value, otherwise the value. -/
def getItem [DecidableEq α] (n : Node α β) (p : List α) : Except Err β :=
  match getNode n p with
  | none => .error .notFound
  | some m =>
    match m.value with
    | none => .error .shortKey
    | some v => .ok v

/-- `Trie.get(key, default)` (inherited `Mapping.get`): `try: return
self[key] except KeyError: return default` — `ShortKeyError` is a subclass
of `KeyError`, so both failures produce the default. -/
def getDefault [DecidableEq α] (n : Node α β) (p : List α) (d : β) : β :=
  match getItem n p with
  | .ok v => v
  | .error _ => d

/-- `Trie.HAS_VALUE`. -/
def HAS_VALUE : Nat := 1

/-- `Trie.HAS_SUBTRIE`. -/
def HAS_SUBTRIE : Nat := 2

/-- `Trie.has_node(key)`: `0` when `_get_node` raises, otherwise
`HAS_VALUE * (value present) | HAS_SUBTRIE * (children nonempty)`. -/
def hasNode [DecidableEq α] (n : Node α β) (p : List α) : Nat :=
  match getNode n p with
  | none => 0
  | some m =>
    (if m.value.isSome then HAS_VALUE else 0) |||
      (if m.children.isEmpty then 0 else HAS_SUBTRIE)

/-- `Trie.has_key(key)`: `bool(has_node(key) & HAS_VALUE)`. -/
def hasKey [DecidableEq α] (n : Node α β) (p : List α) : Bool :=
  hasNode n p &&& HAS_VALUE != 0

/-- `Trie.has_subtrie(key)`: `bool(has_node(key) & HAS_SUBTRIE)`. -/
def hasSubtrie [DecidableEq α] (n : Node α β) (p : List α) : Bool :=
  hasNode n p &&& HAS_SUBTRIE != 0

/-- `Trie.__delitem__` (with `_cleanup_trace`): locate the node
(`KeyError` if the walk fails); for a slice clear value and children; for
a plain key raise `ShortKeyError` when no value is present, else clear the
value; then walk back up deleting every node that became falsy (the
recursive pruning `if c'.nonempty then keep else delete` is exactly
`_cleanup_trace`, which pops empty nodes until the first non-empty one;
the root is never removed). -/
def delAux [DecidableEq α] : Node α β → List α → Bool → Except Err (Node α β)
  | .mk v cs, [], sl =>
    if sl then .ok (.mk none [])
    else
      match v with
      | none => .error .shortKey
      | some _ => .ok (.mk none cs)
  | .mk v cs, s :: rest, sl =>
    match childGet cs s with
    | none => .error .notFound
    | some c =>
      if c.nonempty then
        match delAux c rest sl with
        | .error e => .error e
        | .ok c' =>
          .ok (.mk v (if c'.nonempty then childSet cs s c' else childDel cs s))
      else .error .notFound

/-- `Trie.pop` without a default (`_get_node` + `_pop_from_node` +
`_cleanup_trace`): returns the removed value together with the pruned
trie. -/
def popAux [DecidableEq α] : Node α β → List α → Except Err (β × Node α β)
  | .mk v cs, [] =>
    match v with
    | none => .error .shortKey
    | some x => .ok (x, .mk none cs)
  | .mk v cs, s :: rest =>
    match childGet cs s with
    | none => .error .notFound
    | some c =>
      if c.nonempty then
        match popAux c rest with
        | .error e => .error e
        | .ok (x, c') =>
          .ok (x, .mk v (if c'.nonempty then childSet cs s c' else childDel cs s))
      else .error .notFound

theorem sizeOf_snd_lt_of_mem_children {α β : Type} {v : Option β}
    {cs : List (α × Node α β)} {p : α × Node α β} (h : p ∈ cs) :
    sizeOf p.2 < sizeOf (Node.mk v cs) := by
  have h1 : sizeOf p < sizeOf cs := List.sizeOf_lt_of_mem h
  have h2 : sizeOf p = 1 + sizeOf p.1 + sizeOf p.2 := by
    cases p; simp [Prod.mk.sizeOf_spec]
  simp only [Node.mk.sizeOf_spec]
  omega

mutual
/-- Invariant (a) of the data model: every node strictly below the root is
non-empty (has a value or has children); an empty node would be
unreachable in the Python implementation because `_cleanup_trace` prunes
it immediately.  The root itself is exempt. -/
def invB {α β : Type} : Node α β → Bool
  | .mk _ cs => invKids cs

/-- `invB` for each child of a node. -/
def invKids {α β : Type} : List (α × Node α β) → Bool
  | [] => true
  | (_, c) :: rest => c.nonempty && invB c && invKids rest
end

/-- Steps of a children association list are pairwise distinct (one level
of the representation invariant: Python dict keys are unique). -/
def stepsNodup {α β : Type} [DecidableEq α] : List (α × Node α β) → Bool
  | [] => true
  | (s, _) :: rest => !(rest.any fun x => decide (x.1 = s)) && stepsNodup rest

mutual
/-- Representation invariant of the children association lists: within one
node the steps are pairwise distinct (Python dict keys are unique), at
every level. -/
def nodupSteps {α β : Type} [DecidableEq α] : Node α β → Bool
  | .mk _ cs => stepsNodup cs && nodupKids cs

/-- `nodupSteps` for each child of a node. -/
def nodupKids {α β : Type} [DecidableEq α] : List (α × Node α β) → Bool
  | [] => true
  | (_, c) :: rest => nodupSteps c && nodupKids rest
end

/-- The `iteritems` argument threaded through `_Node.iterate` /
`_Node.traverse`: a function reordering a children dict's item list,
together with the fact that it only reorders (both the module-level
`_iteritems`, which is the identity on an insertion-ordered dict, and
`_sorted_iteritems` satisfy this).  The permutation fact is also what
makes the recursion through it well-founded. -/
def ChildIter (α β : Type) :=
  {f : List (α × Node α β) → List (α × Node α β) // ∀ l, List.Perm (f l) l}

/-- Default child order: `_iteritems` just iterates the dict, i.e.
insertion order. -/
def idIter {α β : Type} : ChildIter α β :=
  ⟨id, fun l => List.Perm.refl l⟩

/-- `_sorted_iteritems`: `sorted(d.items())` — sorts the items; dict keys
are unique so this orders siblings by step. -/
def sortedIter {α β : Type} [LinearOrder α] : ChildIter α β :=
  ⟨fun l => l.mergeSort fun a b => decide (a.1 ≤ b.1),
   fun l => List.mergeSort_perm l _⟩

/-- `_Node.iterate(path, shallow, iteritems)`: yield this node's value (if
any) under `path`, then — unless `shallow` and a value was just yielded —
the children in the order given by `f`, each under `path ++ [step]`.  The
Python version drives exactly this DFS with an explicit heap stack. -/
def iterate {α β : Type} (f : ChildIter α β) :
    Node α β → List α → Bool → List (List α × β)
  | .mk v cs, path, shallow =>
    (match v with
     | some w => [(path, w)]
     | none => []) ++
    (if shallow && v.isSome then []
     else
       (f.1 cs).attach.flatMap fun x =>
         iterate f x.1.2 (path ++ [x.1.1]) shallow)
termination_by n => sizeOf n
decreasing_by
  exact sizeOf_snd_lt_of_mem_children ((f.2 cs).mem_iff.mp x.2)

mutual
/-- `_Node.iterate` specialised to the default child order (the
module-level `_iteritems`, i.e. plain dict order); written as a plain
structural recursion so that it evaluates by `rfl`.  `iterate_idIter`
below proves it equal to `iterate idIter`. -/
def iterItems {α β : Type} : Node α β → List α → Bool → List (List α × β)
  | .mk v cs, path, shallow =>
    (match v with
     | some w => [(path, w)]
     | none => []) ++
    (if shallow && v.isSome then [] else iterKids cs path shallow)

/-- Children part of `iterItems`, in insertion order. -/
def iterKids {α β : Type} :
    List (α × Node α β) → List α → Bool → List (List α × β)
  | [], _, _ => []
  | (s, c) :: rest, path, shallow =>
    iterItems c (path ++ [s]) shallow ++ iterKids rest path shallow
end

/-- `Trie.iteritems(prefix)` (likewise `itervalues`): `_get_node(prefix)`,
raising `KeyError` when the walk fails, then `node.iterate` seeded with
the prefix path. -/
def itemsWithPre {α β : Type} [DecidableEq α] (f : ChildIter α β)
    (n : Node α β) (p : List α) (shallow : Bool) :
    Except Err (List (List α × β)) :=
  match getNode n p with
  | none => .error .notFound
  | some m => .ok (iterate f m p shallow)

/-- `len(trie)`: `sum(1 for _ in self.itervalues())` — the number of
values in the whole trie. -/
def trieLen {α β : Type} (n : Node α β) : Nat :=
  (iterate idIter n [] false).length

/-- `Trie.prefixes(key)`: walk from the root towards the node for `key`,
yielding `(prefix-so-far, value)` at every node holding a value; stop when
the path diverges (`children.get` returns nothing or a falsy node).
`done` is the part of the path already walked, `todo` the rest. -/
def prefixesAux {α β : Type} [DecidableEq α] :
    Node α β → List α → List α → List (List α × β)
  | n, done, [] =>
    match n.value with
    | some v => [(done, v)]
    | none => []
  | n, done, s :: rest =>
    (match n.value with
     | some v => [(done, v)]
     | none => []) ++
    match childGet n.children s with
    | none => []
    | some c => if c.nonempty then prefixesAux c (done ++ [s]) rest else []

/-- `Trie.prefixes(key)` seeded at the root. -/
def prefixPairs {α β : Type} [DecidableEq α] (n : Node α β) (p : List α) :
    List (List α × β) :=
  prefixesAux n [] p

/-- `Trie.shortest_prefix(key)`: `next(self.prefixes(key), _NONE_PAIR)`;
`none` models the falsy `_NONE_PAIR = (None, None)`. -/
def shortestPfx {α β : Type} [DecidableEq α] (n : Node α β) (p : List α) :
    Option (List α × β) :=
  (prefixPairs n p).head?

/-- `Trie.longest_prefix(key)`: `ret = _NONE_PAIR; for ret in
self.prefixes(key): pass; return ret` — the last element, `none`
(modelling the falsy `_NONE_PAIR`) when there is none. -/
def longestPfx {α β : Type} [DecidableEq α] (n : Node α β) (p : List α) :
    Option (List α × β) :=
  (prefixPairs n p).foldl (fun _ x => some x) none

/-- `StringTrie._path_from_key`: `key.split(self._separator)`, modelled
for a single-character separator (the library default is `"/"`): Python's
`str.split` with a one-character separator is exactly splitting the
character sequence on that character, empty components included. -/
def strPath (sep : Char) (k : String) : List String :=
  (k.toList.splitOn sep).map fun l => String.mk l

/-- `StringTrie._key_from_path`: `self._separator.join(path)`. -/
def strKey (sep : Char) (p : List String) : String :=
  String.intercalate (String.mk [sep]) p

/-- `StringTrie.__setitem__` on a plain key. -/
def strSet {β : Type} (sep : Char) (n : Node String β) (k : String) (v : β) :
    Node String β :=
  setPath n (strPath sep k) v false false

/-- `StringTrie.items(shallow=...)`: `iteritems` from the root, with keys
rendered back through `_key_from_path`. -/
def strItems {β : Type} (sep : Char) (n : Node String β) (shallow : Bool) :
    List (String × β) :=
  (iterate idIter n [] shallow).map fun x => (strKey sep x.1, x.2)

/-- `StringTrie.shortest_prefix`, key rendered through `_key_from_path`. -/
def strShortestPfx {β : Type} (sep : Char) (n : Node String β) (k : String) :
    Option (String × β) :=
  (shortestPfx n (strPath sep k)).map fun x => (strKey sep x.1, x.2)

/-- `StringTrie.longest_prefix`, key rendered through `_key_from_path`. -/
def strLongestPfx {β : Type} (sep : Char) (n : Node String β) (k : String) :
    Option (String × β) :=
  (longestPfx n (strPath sep k)).map fun x => (strKey sep x.1, x.2)

/-- `pygtrie.PrefixSet`: wraps one trie whose values are the placeholder
`True`; keys are given here directly as paths. -/
structure PrefixSet (α : Type) : Type where
  root : Node α Bool

/-- `PrefixSet.__contains__`: `bool(self._trie.shortest_prefix(key)[1])` —
`_NONE_PAIR[1]` is `None`, hence falsy. -/
def PrefixSet.containsKey {α : Type} [DecidableEq α] (ps : PrefixSet α)
    (k : List α) : Bool :=
  match shortestPfx ps.root k with
  | none => false
  | some x => x.2

/-- `PrefixSet.add`: `if key not in self: self._trie[key:] = True` — the
slice assignment sets the value and clears all children. -/
def PrefixSet.add {α : Type} [DecidableEq α] (ps : PrefixSet α) (k : List α) :
    PrefixSet α :=
  if ps.containsKey k then ps else ⟨setPath ps.root k true false true⟩

/-- `PrefixSet.__len__`: `len(self._trie)`. -/
def PrefixSet.size {α : Type} (ps : PrefixSet α) : Nat :=
  trieLen ps.root

/-- `Trie.popitem`'s search for a node to remove: starting at the root,
follow the first child (`next(iterkeys(children))`) until a node with a
value is found; `none` when the trie is falsy (empty root) or the walk
gets stuck. -/
def popitemPath {α β : Type} : Node α β → Option (List α)
  | .mk (some _) _ => some []
  | .mk none [] => none
  | .mk none ((s, c) :: _) => (popitemPath c).map fun p => s :: p

/-- The mutating public operations of `Trie` (the failing variants leave
the structure unchanged, matching a raised exception). -/
inductive Op (α β : Type) : Type where
  | set (p : List α) (v : β)
  | setSlice (p : List α) (v : β)
  | setdef (p : List α) (v : β)
  | del (p : List α)
  | delSlice (p : List α)
  | pop (p : List α)
  | popitem
  | update (kvs : List (List α × β))

/-- Effect of one public operation on the root node. -/
def applyOp {α β : Type} [DecidableEq α] (n : Node α β) : Op α β → Node α β
  | .set p v => setPath n p v false false
  | .setSlice p v => setPath n p v false true
  | .setdef p v => setPath n p v true false
  | .del p =>
    match delAux n p false with
    | .ok m => m
    | .error _ => n
  | .delSlice p =>
    match delAux n p true with
    | .ok m => m
    | .error _ => n
  | .pop p =>
    match popAux n p with
    | .ok x => x.2
    | .error _ => n
  | .popitem =>
    match popitemPath n with
    | none => n
    | some p =>
      match delAux n p false with
      | .ok m => m
      | .error _ => n
  | .update kvs => kvs.foldl (fun m kv => setPath m kv.1 kv.2 false false) n

/-- A whole sequence of public operations. -/
def applyOps {α β : Type} [DecidableEq α] (n : Node α β) (ops : List (Op α β)) :
    Node α β :=
  ops.foldl applyOp n

/-- One element of the flat pickling state produced by
`_Node.__getstate__`: the Python list freely mixes command integers, path
steps and node values. -/
inductive Entry (α β : Type) : Type where
  | num (i : Int)
  | step (s : α)
  | val (v : β)

/-- The two commands of the `__getstate__` encoding, before flattening:
`desc steps v` is `[n, step0, ..., stepn-1, value]` (descend the steps,
set the value) and `up n` is `[-n]` (go up `n` steps). -/
inductive Cmd (α β : Type) : Type where
  | desc (steps : List α) (v : β)
  | up (n : Nat)

mutual
/-- The command sequence `__getstate__`'s DFS produces for the subtree of
one node reached from the current machine position by the pending steps
`ps` (steps accumulated while passing through valueless nodes, which the
encoder merges into the next `desc` command; `last_cmd > 0` bookkeeping in
the Python loop).  Each node contributes exactly one trailing `up 1` — its
iterator's `StopIteration`; consecutive `up`s are merged and a trailing
run dropped later, by `flattenState`.  A valueless childless node (only
ever the root) encodes to nothing. -/
def encAux {α β : Type} : List α → Node α β → List (Cmd α β)
  | ps, .mk (some v) cs => .desc ps v :: encKids cs ++ [.up 1]
  | _, .mk none [] => []
  | ps, .mk none (c :: cs) =>
    encAux (ps ++ [c.1]) c.2 ++ encKids cs ++ [.up 1]

/-- Commands for the (non-first, or value-parent) children of a node: each
child starts a fresh descend of one step from its parent (`last_cmd <= 0`
at that point in the Python loop).  `__getstate__` iterates children with
the module-level `_iteritems`, i.e. insertion order. -/
def encKids {α β : Type} : List (α × Node α β) → List (Cmd α β)
  | [] => []
  | c :: cs => encAux [c.1] c.2 ++ encKids cs
end

mutual
/-- Flattening of the command list into the pickle state: a `desc` becomes
`[n, step0, ..., stepn-1, value]`; runs of `up`s merge into a single
negative integer (`state[-1] -= 1` when `last_cmd < 0`), and a trailing
run is dropped entirely (the final `state.pop()` on `IndexError`). -/
def flattenState {α β : Type} : List (Cmd α β) → List (Entry α β)
  | [] => []
  | .desc steps v :: rest =>
    .num steps.length :: (steps.map .step ++ [.val v] ++ flattenState rest)
  | .up n :: rest => flattenUps n rest

/-- Accumulate a run of `up` commands into one negative integer; emit
nothing when the run ends the stream. -/
def flattenUps {α β : Type} (n : Nat) : List (Cmd α β) → List (Entry α β)
  | [] => []
  | .up m :: rest => flattenUps (n + m) rest
  | .desc steps v :: rest =>
    .num (-(n : Int)) :: .num steps.length ::
      (steps.map .step ++ [.val v] ++ flattenState rest)
end

/-- `_Node.__getstate__`: the flat command stream for the whole graph. -/
def getstate {α β : Type} (n : Node α β) : List (Entry α β) :=
  flattenState (encAux [] n)

/-- The decoder stack of `_Node.__setstate__`: the bottom element (the
node being unpickled, `self`) kept apart from the stack of
under-construction descendants, each with the step that links it to its
parent.  Innermost frame first.  In Python, children are linked to their
parent the moment they are created and then mutated in place; in this
pure model a frame is instead folded into its parent's children list when
it is popped, which yields the same final graph. -/
structure DStack (α β : Type) : Type where
  frames : List (α × Node α β)
  root : Node α β

/-- Append a (now finished) child to a node, in creation order. -/
def addChild {α β : Type} (n : Node α β) (s : α) (c : Node α β) : Node α β :=
  .mk n.value (n.children ++ [(s, c)])

/-- `stack.append(type(self)())` plus the linking
`stack[-2].children[step] = stack[-1]` of `__setstate__` (the link
materialises at pop time here). -/
def pushStep {α β : Type} (st : DStack α β) (s : α) : DStack α β :=
  ⟨(s, .mk none []) :: st.frames, st.root⟩

/-- `stack[-1].value = value` of `__setstate__`. -/
def setTopValue {α β : Type} (st : DStack α β) (v : β) : DStack α β :=
  match st.frames with
  | [] => ⟨[], .mk (some v) st.root.children⟩
  | (s, c) :: rest => ⟨(s, .mk (some v) c.children) :: rest, st.root⟩

/-- Pop one frame, folding the finished node into its parent.  Saturates
at the root: `del stack[cmd:]` never touches the bottom `self` node's
links in any stream a Python pickle round trip produces (for a stream
that pops more than the encoder could have emitted, CPython would empty
the list and raise `IndexError` on the next command). -/
def pop1 {α β : Type} (st : DStack α β) : DStack α β :=
  match st.frames with
  | [] => st
  | [(s, c)] => ⟨[], addChild st.root s c⟩
  | (s, c) :: (s', p) :: rest => ⟨(s', addChild p s c) :: rest, st.root⟩

/-- `del stack[cmd:]` for `cmd = -n`: pop `n` frames. -/
def popN {α β : Type} : Nat → DStack α β → DStack α β
  | 0, st => st
  | n + 1, st => popN n (pop1 st)

/-- Fold a stack of frames (innermost first) down into its last frame:
each frame is appended as a child of the next.  This is iterated `pop1`
stopping just above the root. -/
def buildChain {α β : Type} : List (α × Node α β) → α × Node α β → α × Node α β
  | [], f => f
  | (s', p) :: rest, (s, c) => buildChain rest (s', addChild p s c)

/-- End of stream: whatever frames remain are already linked into `self`
in Python; fold them all in (identical to iterating `pop1` until only the
root is left). -/
def collapse {α β : Type} (st : DStack α β) : Node α β :=
  match st.frames with
  | [] => st.root
  | f :: rest =>
    match buildChain rest f with
    | (s, c) => addChild st.root s c

mutual
/-- The command loop of `_Node.__setstate__` over the flat stream;
`none` on a malformed stream, where CPython would raise `StopIteration`
or `IndexError`. -/
def goEntries {α β : Type} : List (Entry α β) → DStack α β → Option (Node α β)
  | [], st => some (collapse st)
  | .num i :: rest, st =>
    if i < 0 then goEntries rest (popN (-i).toNat st)
    else goSteps i.toNat rest st
  | _, _ => none

/-- Reading the `n` steps of a positive command
(`while cmd > 0: ... next(state) ...`) followed by the value
(`stack[-1].value = next(state)`). -/
def goSteps {α β : Type} : Nat → List (Entry α β) → DStack α β → Option (Node α β)
  | 0, .val v :: rest, st => goEntries rest (setTopValue st v)
  | 0, _, _ => none
  | k + 1, .step s :: rest, st => goSteps k rest (pushStep st s)
  | _ + 1, _, _ => none
end

/-- `_Node.__setstate__(state)`: start from a fresh node (`self.__init__()`)
and replay the command stream. -/
def setstate {α β : Type} (entries : List (Entry α β)) : Option (Node α β) :=
  goEntries entries ⟨[], .mk none []⟩

/-- `pushStep` iterated over a list of steps (one positive command's
descend part). -/
def pushSteps {α β : Type} (st : DStack α β) (steps : List α) : DStack α β :=
  steps.foldl pushStep st

/-- The command-level view of `__setstate__`: total on commands (pops
saturate at the root exactly as `pop1` does). -/
def goCmds {α β : Type} : List (Cmd α β) → DStack α β → Node α β
  | [], st => collapse st
  | .desc steps v :: rest, st => goCmds rest (setTopValue (pushSteps st steps) v)
  | .up n :: rest, st => goCmds rest (popN n st)

/-- Append a finished child under step `s` to the node of the top frame
(or to the root when no frame is open): the net effect of decoding one
subtree's command block. -/
def attachTop {α β : Type} (st : DStack α β) (s : α) (c : Node α β) :
    DStack α β :=
  match st.frames with
  | [] => ⟨[], addChild st.root s c⟩
  | (s', p) :: rest => ⟨(s', addChild p s c) :: rest, st.root⟩

/-- `attachTop` iterated over a children list. -/
def attachAll {α β : Type} (st : DStack α β) (cs : List (α × Node α β)) :
    DStack α β :=
  cs.foldl (fun acc sc => attachTop acc sc.1 sc.2) st

/-- All `up` commands of a stream are positive (true of everything
`encAux` emits — its `up`s are all `up 1`). -/
def upsPos {α β : Type} (cmds : List (Cmd α β)) : Prop :=
  ∀ k, Cmd.up k ∈ cmds → 0 < k

/-- The spec's prefix-query example: a `StringTrie` (separator `"/"`)
holding `"foo" -> 1` and `"foo/bar" -> 2`. -/
def exTrieFooBar : Node String Nat :=
  strSet '/' (strSet '/' (.mk none []) "foo" 1) "foo/bar" 2

/-- The spec's shallow-enumeration example: a `StringTrie` (separator
`"/"`) holding exactly `{"foo": 1, "foo/bar": 2}`. -/
def exTrieShallow : Node String Nat := exTrieFooBar

/-- The spec's `PrefixSet` example after adding `["foo","bar"]` then
`["foo","baz"]`. -/
def psTwoKeys : PrefixSet String :=
  PrefixSet.add (PrefixSet.add ⟨.mk none []⟩ ["foo", "bar"]) ["foo", "baz"]

/-- The same set after subsequently adding the short key `["foo"]`. -/
def psCollapsed : PrefixSet String :=
  psTwoKeys.add ["foo"]

/-! ### Lemmas about the children association list -/

section Lemmas

variable [DecidableEq α]

@[simp] theorem childGet_childSet_self (cs : List (α × Node α β)) (k : α)
    (n : Node α β) : childGet (childSet cs k n) k = some n := by
  induction cs with
  | nil => simp [childSet, childGet]
  | cons c rest ih =>
    obtain ⟨a, b⟩ := c
    by_cases h : a = k <;> simp [childSet, childGet, h, ih]

theorem childGet_childSet_ne (cs : List (α × Node α β)) {k k' : α}
    (h : k ≠ k') (n : Node α β) :
    childGet (childSet cs k n) k' = childGet cs k' := by
  induction cs with
  | nil => simp [childSet, childGet, h]
  | cons c rest ih =>
    obtain ⟨a, b⟩ := c
    by_cases hc : a = k <;> by_cases hc' : a = k' <;>
      simp_all [childSet, childGet]

@[simp] theorem childSet_ne_nil (cs : List (α × Node α β)) (k : α)
    (n : Node α β) : childSet cs k n ≠ [] := by
  cases cs with
  | nil => simp [childSet]
  | cons c rest =>
    obtain ⟨a, b⟩ := c
    by_cases h : a = k <;> simp [childSet, h]

theorem childGet_childDel_ne (cs : List (α × Node α β)) {k k' : α}
    (h : k ≠ k') : childGet (childDel cs k) k' = childGet cs k' := by
  induction cs with
  | nil => simp [childDel]
  | cons c rest ih =>
    obtain ⟨a, b⟩ := c
    by_cases hc : a = k <;> by_cases hc' : a = k' <;>
      simp_all [childDel, childGet]

/-- After any `_set`, the written node is non-empty: the final node gets a
value (or keeps one), inner nodes have at least the written child. -/
theorem nonempty_setPath (n : Node α β) (p : List α) (v : β)
    (oim cc : Bool) : (setPath n p v oim cc).nonempty = true := by
  cases n with
  | mk val cs =>
    cases p with
    | nil =>
      cases val <;> cases oim <;> simp [setPath, Node.nonempty]
    | cons s rest => simp [setPath, Node.nonempty]

/-- `_get_node` after `_set(key, value)` (plain assignment: neither
`only_if_missing` nor `clear_children`) reaches a node whose value is the
assigned one. -/
theorem getNode_setPath_self (n : Node α β) (p : List α) (v : β) :
    ∃ m, getNode (setPath n p v false false) p = some m ∧ m.value = some v := by
  induction p generalizing n with
  | nil =>
    cases n with
    | mk val cs =>
      refine ⟨setPath (.mk val cs) [] v false false, by simp [getNode], ?_⟩
      simp [setPath]
  | cons s rest ih =>
    cases n with
    | mk val cs =>
      obtain ⟨m, hm, hv⟩ := ih ((childGet cs s).getD (.mk none []))
      refine ⟨m, ?_, hv⟩
      simp [setPath, getNode, nonempty_setPath, hm]

end Lemmas

/-! ### The claims -/

/-- C1: for every trie, key and value — a "null" value included, since `β`
is arbitrary and may itself be an option type — after `set(k, v)` (`_set`
with neither flag, as `__setitem__` does on a plain key), `get(k)` returns
`v` and `has_key(k)` is true; and the ABSENT marker (`none`, modelling the
private `_SENTINEL` object that Python compares by identity) differs from
`some w` for every storable `w`, so it never collides with a legitimately
stored value. -/
theorem set_then_get_and_hasKey {α β : Type} [DecidableEq α]
    (t : Node α β) (k : List α) (v : β) :
    getItem (setPath t k v false false) k = .ok v ∧
    hasKey (setPath t k v false false) k = true ∧
    ∀ (w : β) (cs : List (α × Node α β)),
      (Node.mk (some w) cs).value ≠ (Node.mk none cs).value := by
  obtain ⟨m, hm, hv⟩ := getNode_setPath_self t k v
  refine ⟨by simp [getItem, hm, hv], ?_, by simp⟩
  simp only [hasKey, hasNode, hm, hv, HAS_VALUE, HAS_SUBTRIE, Option.isSome_some,
    if_true]
  cases m.children.isEmpty <;> decide

theorem nonempty_of_getNode_cons {α β : Type} [DecidableEq α]
    {t : Node α β} {s : α} {rest : List α} {m : Node α β}
    (h : getNode t (s :: rest) = some m) : m.nonempty = true := by
  induction rest generalizing t s with
  | nil =>
    simp only [getNode] at h
    cases hg : childGet t.children s with
    | none => simp [hg] at h
    | some c =>
      rw [hg] at h
      by_cases hc : c.nonempty <;> simp [hc, getNode] at h
      · subst h; exact hc
  | cons s' rest' ih =>
    simp only [getNode] at h
    cases hg : childGet t.children s with
    | none => simp [hg] at h
    | some c =>
      rw [hg] at h
      by_cases hc : c.nonempty <;> simp [hc] at h
      · exact ih h

/-- C3: for every trie and key, the plain lookup `__getitem__` fails with
`ShortKeyError` exactly when `_get_node`'s walk reaches a node that
carries no value, and with the generic `KeyError` exactly when the walk
finds no node; a `ShortKeyError` on a non-empty key implies the key is a
proper prefix of stored data (`has_subtrie`); and the default-aware
`get(key, fallback)` returns the fallback in both failure cases. -/
theorem getItem_error_taxonomy {α β : Type} [DecidableEq α]
    (t : Node α β) (k : List α) (d : β) :
    (getItem t k = .error .notFound ↔ getNode t k = none) ∧
    (getItem t k = .error .shortKey ↔
      ∃ m, getNode t k = some m ∧ m.value = none) ∧
    (∀ e, getItem t k = .error e → getDefault t k d = d) ∧
    (getItem t k = .error .shortKey → k = [] ∨ hasSubtrie t k = true) := by
  refine ⟨?_, ?_, ?_, ?_⟩
  · constructor
    · intro h
      cases hg : getNode t k with
      | none => rfl
      | some m =>
        simp only [getItem, hg] at h
        cases hv : m.value <;> simp [hv] at h
    · intro h; simp [getItem, h]
  · constructor
    · intro h
      cases hg : getNode t k with
      | none => simp [getItem, hg] at h
      | some m =>
        refine ⟨m, rfl, ?_⟩
        simp only [getItem, hg] at h
        cases hv : m.value with
        | none => rfl
        | some w => simp [hv] at h
    · rintro ⟨m, hg, hv⟩; simp [getItem, hg, hv]
  · intro e h; simp [getDefault, h]
  · intro h
    cases k with
    | nil => exact Or.inl rfl
    | cons s rest =>
      refine Or.inr ?_
      cases hg : getNode t (s :: rest) with
      | none => simp [getItem, hg] at h
      | some m =>
        have hne := nonempty_of_getNode_cons hg
        simp only [getItem, hg] at h
        cases hv : m.value <;> simp [hv] at h
        simp only [Node.nonempty] at hne
        cases m with
        | mk mv cs =>
          simp only [Node.value] at hv; subst hv
          simp only [Option.isSome_none, Bool.false_or] at hne
          simp [hasSubtrie, hasNode, hg, HAS_SUBTRIE, HAS_VALUE]
          simp_all

/-- Witness for C3 at a concrete input: a trie storing only the key
`["foo", "bar"]`; looking up `["foo"]` is a short-key failure, looking up
`["zzz"]` a not-found failure, and both lookups with fallback `7` return
`7`. -/
theorem getItem_error_taxonomy_witness :
    getDefault (setPath (.mk none []) ["foo", "bar"] 5 false false) ["foo"] 7 = 7 ∧
    getDefault (setPath (.mk none []) ["foo", "bar"] 5 false false) ["zzz"] 7 = 7 ∧
    hasSubtrie (setPath (.mk none [] : Node String Nat) ["foo", "bar"] 5 false false)
      ["foo"] = true := by
  have h := getItem_error_taxonomy
    (setPath (.mk none [] : Node String Nat) ["foo", "bar"] 5 false false) ["foo"] 7
  have h2 := getItem_error_taxonomy
    (setPath (.mk none [] : Node String Nat) ["foo", "bar"] 5 false false) ["zzz"] 7
  refine ⟨h.2.2.1 .shortKey (by rfl), h2.2.2.1 .notFound (by rfl), ?_⟩
  have := h.2.2.2 (by rfl)
  simpa using this

theorem foldl_some_eq_getLast {γ : Type} (l : List γ) (acc : Option γ) :
    l.foldl (fun _ x => some x) acc =
      (match l.getLast? with
       | none => acc
       | some x => some x) := by
  induction l generalizing acc with
  | nil => rfl
  | cons a r ih =>
    rw [List.foldl_cons, ih (some a)]
    cases r with
    | nil => simp
    | cons b r' =>
      rw [List.getLast?_cons_cons]
      cases h : (b :: r').getLast? with
      | none => simp [List.getLast?_eq_none_iff] at h
      | some x => rfl

/-- C5: `shortest_prefix` is the first element of the `prefixes(key)`
sequence and `longest_prefix` its last; when the sequence is empty both
return the falsy no-match pair (`none` here, modelling `_NONE_PAIR`).  On
the spec's example (`"foo" -> 1`, `"foo/bar" -> 2` in a `StringTrie` with
separator `/`), `longest_prefix("foo/bar/baz")` is `("foo/bar", 2)`,
`shortest_prefix("foo/bar/baz")` is `("foo", 1)`, and both queries on the
unrelated key `"qux/zzz"` return the no-match pair. -/
theorem shortest_longest_vs_prefixes {α β : Type} [DecidableEq α]
    (t : Node α β) (k : List α) :
    shortestPfx t k = (prefixPairs t k).head? ∧
    longestPfx t k = (prefixPairs t k).getLast? ∧
    (prefixPairs t k = [] → shortestPfx t k = none ∧ longestPfx t k = none) ∧
    strLongestPfx '/' exTrieFooBar "foo/bar/baz" = some ("foo/bar", 2) ∧
    strShortestPfx '/' exTrieFooBar "foo/bar/baz" = some ("foo", 1) ∧
    strShortestPfx '/' exTrieFooBar "qux/zzz" = none ∧
    strLongestPfx '/' exTrieFooBar "qux/zzz" = none := by
  have hl : longestPfx t k = (prefixPairs t k).getLast? := by
    rw [longestPfx, foldl_some_eq_getLast]
    cases (prefixPairs t k).getLast? <;> rfl
  refine ⟨rfl, hl, ?_, rfl, rfl, rfl, rfl⟩
  intro h
  rw [shortestPfx, hl, h]
  exact ⟨rfl, rfl⟩

/-- Witness for C5 at a concrete input: on the empty trie and key `[1]`
the prefix sequence is empty and both queries return the falsy pair. -/
theorem shortest_longest_vs_prefixes_witness :
    shortestPfx (.mk none [] : Node Nat Nat) [1] = none ∧
    longestPfx (.mk none [] : Node Nat Nat) [1] = none :=
  (shortest_longest_vs_prefixes (.mk none [] : Node Nat Nat) [1]).2.2.1 rfl

theorem getNode_append {α β : Type} [DecidableEq α] (t : Node α β)
    (p q : List α) :
    getNode t (p ++ q) =
      (match getNode t p with
       | none => none
       | some m => getNode m q) := by
  induction p generalizing t with
  | nil => simp [getNode]
  | cons s rest ih =>
    simp only [List.cons_append, getNode]
    cases childGet t.children s with
    | none => rfl
    | some c => by_cases hc : c.nonempty <;> simp [hc, ih]

/-- A slice write `t[p:] = v` leaves at `p` exactly a leaf holding `v`. -/
theorem getNode_setPath_slice {α β : Type} [DecidableEq α]
    (t : Node α β) (p : List α) (v : β) :
    getNode (setPath t p v false true) p = some (.mk (some v) []) := by
  induction p generalizing t with
  | nil =>
    cases t with
    | mk val cs => simp [setPath, getNode]
  | cons s rest ih =>
    cases t with
    | mk val cs =>
      simp [setPath, getNode, nonempty_setPath,
        ih ((childGet cs s).getD (.mk none []))]

theorem childGet_eq_none_of_not_any {α β : Type} [DecidableEq α]
    {cs : List (α × Node α β)} {s : α}
    (h : (cs.any fun x => decide (x.1 = s)) = false) :
    childGet cs s = none := by
  induction cs with
  | nil => rfl
  | cons c rest ih =>
    obtain ⟨a, b⟩ := c
    simp only [List.any_cons, Bool.or_eq_false_iff] at h
    have ha : a ≠ s := by simpa using h.1
    simp [childGet, ha, ih h.2]

theorem childGet_childDel_self_of_nodup {α β : Type} [DecidableEq α]
    {cs : List (α × Node α β)} {s : α} (h : stepsNodup cs = true) :
    childGet (childDel cs s) s = none := by
  induction cs with
  | nil => rfl
  | cons c rest ih =>
    obtain ⟨a, b⟩ := c
    simp only [stepsNodup, Bool.and_eq_true, Bool.not_eq_true'] at h
    by_cases ha : a = s
    · subst ha
      simpa [childDel] using childGet_eq_none_of_not_any h.1
    · simp [childDel, ha, childGet, ih h.2]

theorem nodupSteps_child {α β : Type} [DecidableEq α]
    {cs : List (α × Node α β)} {s : α} {c : Node α β}
    (hk : nodupKids cs = true) (hg : childGet cs s = some c) :
    nodupSteps c = true := by
  induction cs with
  | nil => simp [childGet] at hg
  | cons x rest ih =>
    obtain ⟨a, b⟩ := x
    simp only [nodupKids, Bool.and_eq_true] at hk
    by_cases ha : a = s
    · simp [childGet, ha] at hg
      exact hg ▸ hk.1
    · simp only [childGet, ha, if_neg ha] at hg
      exact ih hk.2 hg

/-- C8: the bulk write `t[prefix:] = v` (`__setitem__` with a slice, i.e.
`_set` with `clear_children`) sets the prefix's value to `v` and discards
the whole subtree: the subsequent bulk read `list(t[prefix:])` yields the
single pair `(prefix, v)` — so the single value `v` — and every proper
descendant of the prefix is gone (`has_node == 0`). -/
theorem slice_write_replaces_subtree {α β : Type} [DecidableEq α]
    (t : Node α β) (p : List α) (v : β) :
    itemsWithPre idIter (setPath t p v false true) p false = .ok [(p, v)] ∧
    (itemsWithPre idIter (setPath t p v false true) p false).map
      (fun l => l.map Prod.snd) = .ok [v] ∧
    ∀ q, p <+: q → p ≠ q → hasNode (setPath t p v false true) q = 0 := by
  have hg := getNode_setPath_slice t p v
  have hitems :
      itemsWithPre idIter (setPath t p v false true) p false = .ok [(p, v)] := by
    simp [itemsWithPre, hg, iterate, idIter]
  refine ⟨hitems, by rw [hitems]; rfl, ?_⟩
  rintro q ⟨r, rfl⟩ hne
  cases r with
  | nil => simp at hne
  | cons s rest =>
    simp [hasNode, getNode_append, hg, getNode, childGet]

/-- Witness for C8 at a concrete input: a trie holding `["a"] -> 1` and
`["a","b"] -> 2`; after `t[["a"]:] = 9` the bulk read returns only `9`
and the previously stored descendant `["a","b"]` has `has_node == 0`. -/
theorem slice_write_replaces_subtree_witness :
    itemsWithPre idIter
      (setPath (setPath (setPath (.mk none [] : Node String Nat)
        ["a"] 1 false false) ["a", "b"] 2 false false) ["a"] 9 false true)
      ["a"] false = .ok [(["a"], 9)] ∧
    hasNode
      (setPath (setPath (setPath (.mk none [] : Node String Nat)
        ["a"] 1 false false) ["a", "b"] 2 false false) ["a"] 9 false true)
      ["a", "b"] = 0 := by
  have h := slice_write_replaces_subtree
    (setPath (setPath (.mk none [] : Node String Nat) ["a"] 1 false false)
      ["a", "b"] 2 false false) ["a"] 9
  exact ⟨h.1, h.2.2 ["a", "b"] ⟨["b"], rfl⟩ (by simp)⟩

/-- C10: the slice delete `del t[p:]` succeeds whenever `_get_node`'s walk
finds a node for `p`, even a valueless one — the `ShortKeyError` branch of
`__delitem__` is skipped for slices, so the only possible failure is the
walk's generic `KeyError` when no node exists; on success the value and
all descendants of `p` are cleared and pruned, leaving `has_node(p) == 0`.
The hypothesis is the children-dict representation invariant (distinct
steps per node). -/
theorem slice_delete_total {α β : Type} [DecidableEq α]
    (t : Node α β) (p : List α) (hnd : nodupSteps t = true) :
    (∀ m, getNode t p = some m →
      ∃ t', delAux t p true = .ok t' ∧ hasNode t' p = 0) ∧
    (getNode t p = none → delAux t p true = .error .notFound) ∧
    (∀ e, delAux t p true = .error e → e = .notFound) := by
  induction p generalizing t with
  | nil =>
    cases t with
    | mk val cs =>
      refine ⟨fun m _ => ⟨.mk none [], rfl, by simp [hasNode, getNode]⟩,
        fun h => by simp [getNode] at h, fun e he => ?_⟩
      simp [delAux] at he
  | cons s rest ih =>
    cases t with
    | mk val cs =>
      simp only [nodupSteps, Bool.and_eq_true] at hnd
      cases hcg : childGet cs s with
      | none =>
        refine ⟨fun m hm => ?_, fun _ => by simp [delAux, hcg], fun e he => ?_⟩
        · simp [getNode, hcg] at hm
        · simp [delAux, hcg] at he
          exact he.symm
      | some c =>
        by_cases hc : c.nonempty
        · have hndc : nodupSteps c = true := nodupSteps_child hnd.2 hcg
          obtain ⟨ih1, ih2, ih3⟩ := ih c hndc
          refine ⟨fun m hm => ?_, fun hm => ?_, fun e he => ?_⟩
          · have hgc : getNode c rest = some m := by
              simpa [getNode, hcg, hc] using hm
            obtain ⟨c', hdel, hhn⟩ := ih1 m hgc
            by_cases hc' : c'.nonempty
            · refine ⟨.mk val (childSet cs s c'), ?_, ?_⟩
              · simp [delAux, hcg, hc, hdel, hc']
              · have : getNode (Node.mk val (childSet cs s c')) (s :: rest) =
                    getNode c' rest := by
                  simp [getNode, hc']
                simpa [hasNode, this] using hhn
            · refine ⟨.mk val (childDel cs s), ?_, ?_⟩
              · simp [delAux, hcg, hc, hdel, hc']
              · have : getNode (Node.mk val (childDel cs s)) (s :: rest) = none := by
                  simp [getNode, childGet_childDel_self_of_nodup hnd.1]
                simp [hasNode, this]
          · have hgc : getNode c rest = none := by
              simpa [getNode, hcg, hc] using hm
            simp [delAux, hcg, hc, ih2 hgc]
          · simp only [delAux, hcg, hc, if_true] at he
            cases hdel : delAux c rest true with
            | error e' =>
              rw [hdel] at he
              simp at he
              exact he ▸ ih3 e' hdel
            | ok c' =>
              rw [hdel] at he
              simp at he
        · refine ⟨fun m hm => ?_, fun _ => by simp [delAux, hcg, hc],
            fun e he => ?_⟩
          · simp [getNode, hcg, hc] at hm
          · simp [delAux, hcg, hc] at he
            exact he.symm

/-- Witness for C10 at a concrete input: the trie holding only
`["a","b"] -> 2`; the node for `["a"]` exists but carries no value, yet
`del t[["a"]:]` succeeds and afterwards `has_node(["a"]) == 0`. -/
theorem slice_delete_total_witness :
    ∃ t', delAux (setPath (.mk none [] : Node String Nat)
        ["a", "b"] 2 false false) ["a"] true = .ok t' ∧
      hasNode t' ["a"] = 0 :=
  (slice_delete_total
    (setPath (.mk none [] : Node String Nat) ["a", "b"] 2 false false)
    ["a"] rfl).1
    (.mk none [("b", .mk (some 2) [])]) rfl

theorem attach_flatMap {γ δ : Type} (l : List γ) (g : γ → List δ) :
    (l.attach.flatMap fun x => g x.1) = l.flatMap g := by
  have h := List.flatMap_map (l := l.attach) (f := Subtype.val) (g := g)
  rw [List.attach_map_subtype_val] at h
  exact h.symm

/-- One unfolding of `iterate`, with the `attach` bookkeeping removed. -/
theorem iterate_eq {α β : Type} (f : ChildIter α β) (v : Option β)
    (cs : List (α × Node α β)) (path : List α) (sh : Bool) :
    iterate f (.mk v cs) path sh =
      (match v with
       | some w => [(path, w)]
       | none => []) ++
      (if sh && v.isSome then []
       else (f.1 cs).flatMap fun c => iterate f c.2 (path ++ [c.1]) sh) := by
  cases v with
  | some w =>
    rw [iterate.eq_1]
    congr 1
    split
    · rfl
    · exact attach_flatMap (f.1 cs) fun c => iterate f c.2 (path ++ [c.1]) sh
  | none =>
    rw [iterate.eq_2]
    congr 1
    split
    · rfl
    · exact attach_flatMap (f.1 cs) fun c => iterate f c.2 (path ++ [c.1]) sh

mutual
/-- `iterate` with the default child order is the structural `iterItems`. -/
theorem iterate_idIter {α β : Type} :
    ∀ (n : Node α β) (path : List α) (sh : Bool),
      iterate idIter n path sh = iterItems n path sh
  | .mk v cs, path, sh => by
    rw [iterate_eq]
    have hrhs : iterItems (.mk v cs) path sh =
        (match v with
         | some w => [(path, w)]
         | none => []) ++
        (if sh && v.isSome then [] else iterKids cs path sh) := rfl
    rw [hrhs]
    congr 1
    split
    · rfl
    · exact iterate_idIter_kids cs path sh
termination_by n _ _ => sizeOf n
decreasing_by simp [Node.mk.sizeOf_spec] <;> omega

/-- Children part of `iterate_idIter`. -/
theorem iterate_idIter_kids {α β : Type} :
    ∀ (cs : List (α × Node α β)) (path : List α) (sh : Bool),
      (cs.flatMap fun c => iterate idIter c.2 (path ++ [c.1]) sh) =
        iterKids cs path sh
  | [], _, _ => rfl
  | c :: rest, path, sh => by
    rw [List.flatMap_cons, iterate_idIter c.2 (path ++ [c.1]) sh,
      iterate_idIter_kids rest path sh]
    rfl
termination_by cs _ _ => sizeOf cs
decreasing_by
  · cases c; simp [Prod.mk.sizeOf_spec] <;> omega
  · simp <;> omega
end

theorem key_extends_of_mem_iterate {α β : Type} (f : ChildIter α β) :
    ∀ (n : Node α β) (path : List α) (sh : Bool) (x : List α × β),
      x ∈ iterate f n path sh → path <+: x.1
  | .mk v cs, path, sh, x => fun hx => by
    rw [iterate_eq] at hx
    rcases List.mem_append.mp hx with h1 | h2
    · cases v with
      | some w =>
        obtain rfl := List.mem_singleton.mp h1
        exact List.prefix_rfl
      | none => simp at h1
    · split at h2
      · simp at h2
      · obtain ⟨c, hc, hxc⟩ := List.mem_flatMap.mp h2
        have hkey := key_extends_of_mem_iterate f c.2 (path ++ [c.1]) sh x hxc
        exact (List.prefix_append path [c.1]).trans hkey
termination_by n _ _ _ => sizeOf n
decreasing_by
  exact sizeOf_snd_lt_of_mem_children ((f.2 cs).mem_iff.mp hc)

theorem childGet_mem {α β : Type} [DecidableEq α]
    {cs : List (α × Node α β)} {s : α} {c : Node α β}
    (h : childGet cs s = some c) : (s, c) ∈ cs := by
  induction cs with
  | nil => simp [childGet] at h
  | cons x rest ih =>
    obtain ⟨a, b⟩ := x
    by_cases ha : a = s
    · subst ha
      simp [childGet] at h
      simp [h]
    · simp only [childGet, if_neg ha] at h
      exact List.mem_cons_of_mem _ (ih h)

theorem stepsNodup_iff {α β : Type} [DecidableEq α]
    (cs : List (α × Node α β)) :
    stepsNodup cs = true ↔ (cs.map Prod.fst).Nodup := by
  induction cs with
  | nil => simp [stepsNodup]
  | cons c rest ih =>
    obtain ⟨a, b⟩ := c
    simp only [stepsNodup, Bool.and_eq_true, Bool.not_eq_true', List.map_cons,
      List.nodup_cons, ih, List.any_eq_false, decide_eq_false_iff_not]
    constructor
    · rintro ⟨h1, h2⟩
      refine ⟨fun hmem => ?_, h2⟩
      obtain ⟨x, hx, hxa⟩ := List.mem_map.mp hmem
      exact h1 x hx (by simpa using hxa)
    · rintro ⟨h1, h2⟩
      exact ⟨fun x hx hxa => h1 (List.mem_map.mpr ⟨x, hx, by simpa using hxa⟩), h2⟩

theorem nodupKids_mem {α β : Type} [DecidableEq α]
    {cs : List (α × Node α β)} {p : α × Node α β}
    (hk : nodupKids cs = true) (hmem : p ∈ cs) : nodupSteps p.2 = true := by
  induction cs with
  | nil => simp at hmem
  | cons x rest ih =>
    obtain ⟨a, b⟩ := x
    simp only [nodupKids, Bool.and_eq_true] at hk
    rcases List.mem_cons.mp hmem with h | h
    · rw [h]; exact hk.1
    · exact ih hk.2 h

theorem keys_incomparable {α : Type} {s1 s2 : α} (hne : s1 ≠ s2)
    {p A B : List α} (hA : p ++ [s1] <+: A) (hB : p ++ [s2] <+: B) :
    ¬(A <+: B) := by
  intro hAB
  have h1 : p ++ [s1] <+: B := hA.trans hAB
  have h2 : p ++ [s1] <+: p ++ [s2] :=
    List.prefix_of_prefix_length_le h1 hB (by simp)
  obtain ⟨t, ht⟩ := h2
  have hlen : t = [] := by
    have hl := congrArg List.length ht
    simp at hl
    exact hl
  subst hlen
  rw [List.append_nil] at ht
  exact hne (by simpa using List.append_cancel_left ht)

/-- Order of `_Node.iterate`, for any child order that permutes the
children dict: a later item's key is never a proper prefix of an earlier
item's key (parents come first), and in shallow mode the keys are a full
antichain (no yielded key is a proper prefix of another). -/
theorem iterate_pairwise {α β : Type} [DecidableEq α] (f : ChildIter α β) :
    ∀ (n : Node α β) (path : List α) (sh : Bool), nodupSteps n = true →
      (iterate f n path sh).Pairwise
        (fun a b => ¬(b.1 <+: a.1 ∧ b.1 ≠ a.1) ∧
          (sh = true → ¬(a.1 <+: b.1 ∧ a.1 ≠ b.1)))
  | .mk v cs, path, sh, hnd => by
    have hnd' : stepsNodup cs = true ∧ nodupKids cs = true := by
      simpa [nodupSteps] using hnd
    rw [iterate_eq, List.pairwise_append]
    refine ⟨?_, ?_, ?_⟩
    · cases v <;> simp
    · split
      · simp
      · rw [show ((f.1 cs).flatMap fun c => iterate f c.2 (path ++ [c.1]) sh) =
            ((f.1 cs).map fun c => iterate f c.2 (path ++ [c.1]) sh).flatten
            from rfl]
        rw [List.pairwise_flatten]
        constructor
        · intro l' hl'
          obtain ⟨c, hc, rfl⟩ := List.mem_map.mp hl'
          have hmem : c ∈ cs := (f.2 cs).mem_iff.mp hc
          exact iterate_pairwise f c.2 (path ++ [c.1]) sh
            (nodupKids_mem hnd'.2 hmem)
        · rw [List.pairwise_map]
          have hnodup : ((f.1 cs).map Prod.fst).Nodup :=
            (List.Perm.nodup_iff ((f.2 cs).map Prod.fst)).mpr
              ((stepsNodup_iff cs).mp hnd'.1)
          have hpw : (f.1 cs).Pairwise fun c d => c.1 ≠ d.1 :=
            List.pairwise_map.mp hnodup
          refine hpw.imp ?_
          intro c d hne x hx y hy
          have hxk := key_extends_of_mem_iterate f c.2 (path ++ [c.1]) sh x hx
          have hyk := key_extends_of_mem_iterate f d.2 (path ++ [d.1]) sh y hy
          exact ⟨fun hcon => keys_incomparable (Ne.symm hne) hyk hxk hcon.1,
            fun _ hcon => keys_incomparable hne hxk hyk hcon.1⟩
    · intro a ha b hb
      cases v with
      | none => simp at ha
      | some w =>
        obtain rfl := List.mem_singleton.mp ha
        split at hb
        · simp at hb
        · rename_i hcond
          obtain ⟨c, hc, hbc⟩ := List.mem_flatMap.mp hb
          have hbk := key_extends_of_mem_iterate f c.2 (path ++ [c.1]) sh b hbc
          have hblen : path.length < b.1.length := by
            have := hbk.length_le
            simp at this
            omega
          constructor
          · rintro ⟨hpre, _⟩
            have := hpre.length_le
            simp at this
            omega
          · intro hsh
            rw [hsh] at hcond
            simp at hcond
termination_by n _ _ _ => sizeOf n
decreasing_by exact sizeOf_snd_lt_of_mem_children hmem

/-- Completeness of the (non-shallow) enumeration: every valued node of
the subtree is yielded, whatever the child order. -/
theorem mem_iterate_of_nodeAt {α β : Type} [DecidableEq α] (f : ChildIter α β)
    (r : List α) :
    ∀ (n : Node α β) (path : List α) (m : Node α β) (v : β),
      nodeAt n r = some m → m.value = some v →
      (path ++ r, v) ∈ iterate f n path false := by
  induction r with
  | nil =>
    intro n path m v hm hv
    simp only [nodeAt, Option.some.injEq] at hm
    subst hm
    cases n with
    | mk val cs =>
      rw [iterate_eq]
      simp only [Node.value] at hv
      subst hv
      simp
  | cons s rest ih =>
    intro n path m v hm hv
    cases n with
    | mk val cs =>
      simp only [nodeAt, Node.children_mk] at hm
      cases hcg : childGet cs s with
      | none => simp [hcg] at hm
      | some c =>
        rw [hcg] at hm
        have hmem : (s, c) ∈ f.1 cs := (f.2 cs).mem_iff.mpr (childGet_mem hcg)
        have hin := ih c (path ++ [s]) m v hm hv
        rw [iterate_eq]
        refine List.mem_append_right _ ?_
        simp only [Bool.false_and, if_neg (by simp : ¬(false = true))]
        exact List.mem_flatMap.mpr ⟨(s, c), hmem, by simpa using hin⟩

/-- Completeness of the shallow enumeration: a valued node none of whose
proper ancestors carries a value is still yielded — in particular a
valued sibling of a yielded node is visited. -/
theorem mem_iterate_shallow_of_minimal {α β : Type} [DecidableEq α]
    (f : ChildIter α β) (r : List α) :
    ∀ (n : Node α β) (path : List α) (m : Node α β) (v : β),
      nodeAt n r = some m → m.value = some v →
      (∀ r' m', r' <+: r → r' ≠ r → nodeAt n r' = some m' →
        m'.value = none) →
      (path ++ r, v) ∈ iterate f n path true := by
  induction r with
  | nil =>
    intro n path m v hm hv _
    simp only [nodeAt, Option.some.injEq] at hm
    subst hm
    cases n with
    | mk val cs =>
      rw [iterate_eq]
      simp only [Node.value] at hv
      subst hv
      simp
  | cons s rest ih =>
    intro n path m v hm hv hmin
    cases n with
    | mk val cs =>
      have hroot : val = none := by
        have := hmin [] (.mk val cs) (by simp) (by simp) (by simp [nodeAt])
        simpa using this
      subst hroot
      simp only [nodeAt, Node.children_mk] at hm
      cases hcg : childGet cs s with
      | none => simp [hcg] at hm
      | some c =>
        rw [hcg] at hm
        have hmem : (s, c) ∈ f.1 cs := (f.2 cs).mem_iff.mpr (childGet_mem hcg)
        have hin := ih c (path ++ [s]) m v hm hv ?_
        · rw [iterate_eq]
          refine List.mem_append_right _ ?_
          simp only [Option.isSome_none, Bool.and_false,
            if_neg (by simp : ¬(false = true))]
          exact List.mem_flatMap.mpr ⟨(s, c), hmem, by simpa using hin⟩
        · intro r' m' hpre hne hat
          refine hmin (s :: r') m' ?_ (by simpa using hne) ?_
          · obtain ⟨t, rfl⟩ := hpre
            exact ⟨t, rfl⟩
          · simpa [nodeAt, hcg] using hat

/-- C6: in every enumeration produced by `iterate`/`iteritems` — any
insertion order (the trie is universally quantified) and any child order
that permutes each children dict, which covers both the default
`_iteritems` and `_sorted_iteritems` — every `(key, value)` pair appears
after the pair of any proper prefix of its key that carries a value:
(a) a later key is never a proper prefix of an earlier key, and (b) the
pair of every valued ancestor is itself in the enumeration.  The
hypothesis is the children-dict representation invariant (distinct steps
per node). -/
theorem iterate_topological {α β : Type} [DecidableEq α] (f : ChildIter α β)
    (t : Node α β) (p : List α) (hnd : nodupSteps t = true) :
    ((iterate f t p false).Pairwise fun a b => ¬(b.1 <+: a.1 ∧ b.1 ≠ a.1)) ∧
    ∀ r m v, nodeAt t r = some m → m.value = some v →
      (p ++ r, v) ∈ iterate f t p false := by
  constructor
  · exact (iterate_pairwise f t p false hnd).imp fun h => h.1
  · intro r m v hm hv
    exact mem_iterate_of_nodeAt f r t p m v hm hv

/-- Witness for C6 at a concrete input: the two-key example trie, default
child order; the hypothesis (distinct steps) is discharged by evaluation
and the ancestor pair `(["foo"], 1)` is in the enumeration. -/
theorem iterate_topological_witness :
    ((iterate idIter exTrieFooBar [] false).Pairwise
      fun a b => ¬(b.1 <+: a.1 ∧ b.1 ≠ a.1)) ∧
    (["foo"], 1) ∈ iterate idIter exTrieFooBar [] false := by
  have h := iterate_topological idIter exTrieFooBar [] rfl
  exact ⟨h.1, h.2 ["foo"] (.mk (some 1) [("bar", .mk (some 2) [])]) 1 rfl rfl⟩

/-- C7: in shallow mode a node with a value suppresses its whole subtree
while siblings are still visited: (a) the yielded keys form an antichain
(no yielded key is a proper prefix of another yielded key — so no
descendant of a yielded valued node is yielded), (b) a valued node with
no valued proper ancestor is still yielded, and (c) concretely, shallow
enumeration of the `StringTrie` `{"foo": 1, "foo/bar": 2}` (separator
`/`) yields exactly `[("foo", 1)]`. -/
theorem shallow_suppresses_descendants {α β : Type} [DecidableEq α]
    (f : ChildIter α β) (t : Node α β) (p : List α)
    (hnd : nodupSteps t = true) :
    ((iterate f t p true).Pairwise fun a b =>
      ¬(a.1 <+: b.1 ∧ a.1 ≠ b.1) ∧ ¬(b.1 <+: a.1 ∧ b.1 ≠ a.1)) ∧
    (∀ r m v, nodeAt t r = some m → m.value = some v →
      (∀ r' m', r' <+: r → r' ≠ r → nodeAt t r' = some m' →
        m'.value = none) →
      (p ++ r, v) ∈ iterate f t p true) ∧
    strItems '/' exTrieShallow true = [("foo", 1)] := by
  refine ⟨?_, ?_, ?_⟩
  · exact (iterate_pairwise f t p true hnd).imp fun h =>
      ⟨h.2 rfl, h.1⟩
  · intro r m v hm hv hmin
    exact mem_iterate_shallow_of_minimal f r t p m v hm hv hmin
  · rw [strItems, iterate_idIter]
    rfl

/-- Witness for C7 at a concrete input: the example trie with default
child order; hypotheses discharged by evaluation; the sibling-completeness
part applied to the root key `["foo"]` itself. -/
theorem shallow_suppresses_descendants_witness :
    ((iterate idIter exTrieShallow [] true).Pairwise fun a b =>
      ¬(a.1 <+: b.1 ∧ a.1 ≠ b.1) ∧ ¬(b.1 <+: a.1 ∧ b.1 ≠ a.1)) ∧
    (["foo"], 1) ∈ iterate idIter exTrieShallow [] true := by
  have h := shallow_suppresses_descendants idIter exTrieShallow [] rfl
  refine ⟨h.1, ?_⟩
  refine h.2.1 ["foo"] (.mk (some 1) [("bar", .mk (some 2) [])]) 1 rfl rfl ?_
  intro r' m' hpre hne hat
  have hr' : r' = [] := by
    cases r' with
    | nil => rfl
    | cons a r'' =>
      obtain ⟨u, hu⟩ := hpre
      cases r'' with
      | nil =>
        simp at hu
        exact absurd (by rw [hu.1]) hne
      | cons b r''' => simp at hu
  subst hr'
  simp only [nodeAt, Option.some.injEq] at hat
  rw [← hat]
  rfl

/-- C9: `PrefixSet.add(key)` is a no-op when the set already contains the
key (an ancestor of it — or the key itself — is stored); otherwise it is
the bulk slice write `trie[key:] = True`, which discards every stored
descendant of the key.  On the spec's example: after adding
`["foo","bar"]` and `["foo","baz"]` the size is 2; adding `["foo"]`
collapses the size to 1 while `["foo","bar"]` is still contained. -/
theorem prefixSet_add_semantics :
    (∀ (α : Type) [DecidableEq α] (ps : PrefixSet α) (k : List α),
      ps.containsKey k = true → ps.add k = ps) ∧
    (∀ (α : Type) [DecidableEq α] (ps : PrefixSet α) (k : List α),
      ps.containsKey k = false →
      (ps.add k).root = setPath ps.root k true false true ∧
      ∀ q, k <+: q → k ≠ q → hasNode (ps.add k).root q = 0) ∧
    psTwoKeys.size = 2 ∧
    psCollapsed.size = 1 ∧
    psCollapsed.containsKey ["foo", "bar"] = true := by
  refine ⟨?_, ?_, ?_, ?_, rfl⟩
  · intro α _ ps k h
    rw [PrefixSet.add, if_pos h]
  · intro α _ ps k h
    have hroot : (ps.add k).root = setPath ps.root k true false true := by
      rw [PrefixSet.add, if_neg (by simp [h])]
    refine ⟨hroot, fun q hq hne => ?_⟩
    rw [hroot]
    exact (slice_write_replaces_subtree ps.root k true).2.2 q hq hne
  · rw [PrefixSet.size, trieLen, iterate_idIter]
    rfl
  · rw [PrefixSet.size, trieLen, iterate_idIter]
    rfl

/-- Witness for C9 at concrete inputs: adding a key below the stored
`["foo","bar"]` is a no-op on `psTwoKeys`; adding the unrelated `["zzz"]`
performs the slice write and its descendant `["zzz","w"]` has
`has_node == 0`. -/
theorem prefixSet_add_semantics_witness :
    psTwoKeys.add ["foo", "bar", "deep"] = psTwoKeys ∧
    hasNode (psTwoKeys.add ["zzz"]).root ["zzz", "w"] = 0 := by
  have h := prefixSet_add_semantics
  refine ⟨h.1 String psTwoKeys ["foo", "bar", "deep"] (by rfl), ?_⟩
  exact (h.2.1 String psTwoKeys ["zzz"] (by rfl)).2 ["zzz", "w"] ⟨["w"], rfl⟩
    (by simp)

theorem invKids_childGet {α β : Type} [DecidableEq α]
    {cs : List (α × Node α β)} {s : α} {c : Node α β}
    (hk : invKids cs = true) (hg : childGet cs s = some c) :
    c.nonempty = true ∧ invB c = true := by
  induction cs with
  | nil => simp [childGet] at hg
  | cons x rest ih =>
    obtain ⟨a, b⟩ := x
    simp only [invKids, Bool.and_eq_true] at hk
    by_cases ha : a = s
    · simp only [childGet, if_pos ha, Option.some.injEq] at hg
      exact hg ▸ ⟨hk.1.1, hk.1.2⟩
    · simp only [childGet, if_neg ha] at hg
      exact ih hk.2 hg

theorem invKids_childSet {α β : Type} [DecidableEq α]
    {cs : List (α × Node α β)} {s : α} {n : Node α β}
    (hk : invKids cs = true) (hne : n.nonempty = true) (hi : invB n = true) :
    invKids (childSet cs s n) = true := by
  induction cs with
  | nil => simp [childSet, invKids, hne, hi]
  | cons x rest ih =>
    obtain ⟨a, b⟩ := x
    simp only [invKids, Bool.and_eq_true] at hk
    by_cases ha : a = s
    · simp [childSet, ha, invKids, hne, hi, hk.2]
    · simp [childSet, ha, invKids, hk.1.1, hk.1.2, ih hk.2]

theorem invKids_childDel {α β : Type} [DecidableEq α]
    {cs : List (α × Node α β)} {s : α} (hk : invKids cs = true) :
    invKids (childDel cs s) = true := by
  induction cs with
  | nil => simp [childDel, invKids]
  | cons x rest ih =>
    obtain ⟨a, b⟩ := x
    simp only [invKids, Bool.and_eq_true] at hk
    by_cases ha : a = s
    · simpa [childDel, ha] using hk.2
    · simp [childDel, ha, invKids, hk.1.1, hk.1.2, ih hk.2]

/-- `_set` preserves the pruning invariant. -/
theorem invB_setPath {α β : Type} [DecidableEq α]
    (p : List α) (t : Node α β) (v : β) (oim cc : Bool)
    (h : invB t = true) : invB (setPath t p v oim cc) = true := by
  induction p generalizing t with
  | nil =>
    cases t with
    | mk val cs =>
      cases cc with
      | true => simp [setPath, invB, invKids]
      | false => simpa [setPath, invB] using h
  | cons s rest ih =>
    cases t with
    | mk val cs =>
      rw [setPath, invB]
      have hks : invKids cs = true := by simpa [invB] using h
      cases hcg : childGet cs s with
      | none =>
        refine invKids_childSet hks (nonempty_setPath _ _ _ _ _) ?_
        simp only [hcg, Option.getD_none]
        exact ih _ (by simp [invB, invKids])
      | some c =>
        obtain ⟨hcne, hci⟩ := invKids_childGet hks hcg
        refine invKids_childSet hks (nonempty_setPath _ _ _ _ _) ?_
        simp only [hcg, Option.getD_some]
        exact ih c hci

/-- `__delitem__` (plain or slice, cleanup included) preserves the
pruning invariant. -/
theorem invB_delAux {α β : Type} [DecidableEq α]
    (p : List α) (t t' : Node α β) (sl : Bool)
    (h : invB t = true) (hd : delAux t p sl = .ok t') : invB t' = true := by
  induction p generalizing t t' with
  | nil =>
    cases t with
    | mk val cs =>
      cases sl with
      | true =>
        cases val <;> simp [delAux] at hd <;> subst hd <;> rfl
      | false =>
        cases val with
        | none => simp [delAux] at hd
        | some w =>
          simp [delAux] at hd
          subst hd
          simpa [invB] using h
  | cons s rest ih =>
    cases t with
    | mk val cs =>
      have hks : invKids cs = true := by simpa [invB] using h
      cases hcg : childGet cs s with
      | none => simp [delAux, hcg] at hd
      | some c =>
        obtain ⟨hcne, hci⟩ := invKids_childGet hks hcg
        cases hdc : delAux c rest sl with
        | error e => simp [delAux, hcg, hcne, hdc] at hd
        | ok c' =>
          simp only [delAux, hcg, hcne, hdc, if_true, Except.ok.injEq] at hd
          have hc'i := ih c c' hci hdc
          rw [← hd, invB]
          by_cases hc'ne : c'.nonempty = true
          · simp only [hc'ne, if_true]
            exact invKids_childSet hks hc'ne hc'i
          · simp only [hc'ne, if_false]
            exact invKids_childDel hks

/-- `pop` (value removal plus cleanup) preserves the pruning invariant. -/
theorem invB_popAux {α β : Type} [DecidableEq α]
    (p : List α) (t t' : Node α β) (x : β)
    (h : invB t = true) (hd : popAux t p = .ok (x, t')) : invB t' = true := by
  induction p generalizing t t' x with
  | nil =>
    cases t with
    | mk val cs =>
      cases val with
      | none => simp [popAux] at hd
      | some w =>
        simp only [popAux, Except.ok.injEq, Prod.mk.injEq] at hd
        rw [← hd.2, invB]
        simpa [invB] using h
  | cons s rest ih =>
    cases t with
    | mk val cs =>
      have hks : invKids cs = true := by simpa [invB] using h
      cases hcg : childGet cs s with
      | none => simp [popAux, hcg] at hd
      | some c =>
        obtain ⟨hcne, hci⟩ := invKids_childGet hks hcg
        cases hdc : popAux c rest with
        | error e => simp [popAux, hcg, hcne, hdc] at hd
        | ok y =>
          obtain ⟨z, c'⟩ := y
          simp only [popAux, hcg, hcne, hdc, if_true, Except.ok.injEq,
            Prod.mk.injEq] at hd
          have hc'i := ih c c' z hci hdc
          rw [← hd.2, invB]
          by_cases hc'ne : c'.nonempty = true
          · simp only [hc'ne, if_true]
            exact invKids_childSet hks hc'ne hc'i
          · simp only [hc'ne, if_false]
            exact invKids_childDel hks

/-- Every public mutating operation preserves the pruning invariant. -/
theorem invB_applyOp {α β : Type} [DecidableEq α]
    (t : Node α β) (op : Op α β) (h : invB t = true) :
    invB (applyOp t op) = true := by
  cases op with
  | set p v => exact invB_setPath p t v false false h
  | setSlice p v => exact invB_setPath p t v false true h
  | setdef p v => exact invB_setPath p t v true false h
  | del p =>
    cases hd : delAux t p false with
    | ok m =>
      have he : applyOp t (.del p) = m := by simp [applyOp, hd]
      rw [he]
      exact invB_delAux p t m false h hd
    | error e =>
      have he : applyOp t (.del p) = t := by simp [applyOp, hd]
      rw [he]
      exact h
  | delSlice p =>
    cases hd : delAux t p true with
    | ok m =>
      have he : applyOp t (.delSlice p) = m := by simp [applyOp, hd]
      rw [he]
      exact invB_delAux p t m true h hd
    | error e =>
      have he : applyOp t (.delSlice p) = t := by simp [applyOp, hd]
      rw [he]
      exact h
  | pop p =>
    cases hd : popAux t p with
    | ok y =>
      have he : applyOp t (.pop p) = y.2 := by simp [applyOp, hd]
      rw [he]
      exact invB_popAux p t y.2 y.1 h (by rw [hd])
    | error e =>
      have he : applyOp t (.pop p) = t := by simp [applyOp, hd]
      rw [he]
      exact h
  | popitem =>
    cases hp : popitemPath t with
    | none =>
      have he : applyOp t .popitem = t := by simp [applyOp, hp]
      rw [he]
      exact h
    | some p =>
      cases hd : delAux t p false with
      | ok m =>
        have he : applyOp t .popitem = m := by simp [applyOp, hp, hd]
        rw [he]
        exact invB_delAux p t m false h hd
      | error e =>
        have he : applyOp t .popitem = t := by simp [applyOp, hp, hd]
        rw [he]
        exact h
  | update kvs =>
    rw [applyOp]
    induction kvs generalizing t with
    | nil => exact h
    | cons kv rest ih =>
      exact ih (setPath t kv.1 kv.2 false false)
        (invB_setPath kv.1 t kv.2 false false h)

theorem hasSubtrie_mk_empty {α β : Type} [DecidableEq α] (r : List α) :
    hasSubtrie (.mk none [] : Node α β) r = false := by
  cases r with
  | nil => simp [hasSubtrie, hasNode, getNode, HAS_VALUE, HAS_SUBTRIE]
  | cons s rest => simp [hasSubtrie, hasNode, getNode, childGet]

/-- When `k` was not a prefix of stored data, setting `k` leaves a node
with no children at `k`. -/
theorem getNode_setPath_of_no_subtrie {α β : Type} [DecidableEq α]
    (k : List α) (t : Node α β) (v : β) (h : hasSubtrie t k = false) :
    getNode (setPath t k v false false) k = some (.mk (some v) []) := by
  induction k generalizing t with
  | nil =>
    cases t with
    | mk val cs =>
      have hcs : cs = [] := by
        by_contra hne
        rw [hasSubtrie, hasNode] at h
        simp only [getNode] at h
        rw [show (Node.mk val cs).children.isEmpty = false by
          simpa [List.isEmpty_iff] using hne] at h
        cases hval : val <;> simp [hval, HAS_VALUE, HAS_SUBTRIE] at h
      subst hcs
      simp [setPath, getNode]
  | cons s rest ih =>
    cases t with
    | mk val cs =>
      rw [setPath]
      have hstep : getNode
          (Node.mk val (childSet cs s
            (setPath ((childGet cs s).getD (.mk none [])) rest v false false)))
          (s :: rest) =
          getNode (setPath ((childGet cs s).getD (.mk none [])) rest v false false)
            rest := by
        simp [getNode, nonempty_setPath]
      rw [hstep]
      cases hcg : childGet cs s with
      | none =>
        simp only [hcg, Option.getD_none]
        exact ih _ (hasSubtrie_mk_empty rest)
      | some c =>
        simp only [hcg, Option.getD_some]
        by_cases hcne : c.nonempty = true
        · refine ih c ?_
          rw [hasSubtrie, hasNode] at h ⊢
          have : getNode (Node.mk val cs) (s :: rest) = getNode c rest := by
            simp [getNode, hcg, hcne]
          rwa [this] at h
        · have hc : c = .mk none [] := by
            cases c with
            | mk cv ccs =>
              simp only [Node.nonempty, Bool.or_eq_true, Bool.not_eq_true,
                Bool.not_eq_true'] at hcne
              push_neg at hcne
              obtain ⟨h1, h2⟩ : cv.isSome = false ∧ ccs.isEmpty = true := by
                constructor
                · cases hx : cv.isSome
                  · rfl
                  · simp [hx] at hcne
                · cases hx : ccs.isEmpty
                  · simp [hx] at hcne
                  · rfl
              cases cv with
              | some w => simp at h1
              | none => simp [List.isEmpty_iff] at h2; rw [h2]
          rw [hc]
          exact ih _ (hasSubtrie_mk_empty rest)

/-- Deleting a key whose node is a valued leaf removes the whole path back
to the first shared node: `has_node(k) == 0` afterwards. -/
theorem delAux_clears_leaf {α β : Type} [DecidableEq α]
    (k : List α) (t : Node α β) (w : β) (hnd : nodupSteps t = true)
    (hg : getNode t k = some (.mk (some w) [])) :
    ∃ t', delAux t k false = .ok t' ∧ hasNode t' k = 0 := by
  induction k generalizing t with
  | nil =>
    simp only [getNode, Option.some.injEq] at hg
    subst hg
    exact ⟨.mk none [], by simp [delAux], by simp [hasNode, getNode]⟩
  | cons s rest ih =>
    cases t with
    | mk val cs =>
      simp only [nodupSteps, Bool.and_eq_true] at hnd
      cases hcg : childGet cs s with
      | none => simp [getNode, hcg] at hg
      | some c =>
        by_cases hcne : c.nonempty = true
        · simp only [getNode, Node.children_mk, hcg, hcne, if_true] at hg
          obtain ⟨c', hdel, h0⟩ := ih c (nodupSteps_child hnd.2 hcg) hg
          by_cases hc'ne : c'.nonempty = true
          · refine ⟨.mk val (childSet cs s c'),
              by simp [delAux, hcg, hcne, hdel, hc'ne], ?_⟩
            have : getNode (Node.mk val (childSet cs s c')) (s :: rest) =
                getNode c' rest := by
              simp [getNode, hc'ne]
            simpa [hasNode, this] using h0
          · refine ⟨.mk val (childDel cs s),
              by simp [delAux, hcg, hcne, hdel, hc'ne], ?_⟩
            have : getNode (Node.mk val (childDel cs s)) (s :: rest) = none := by
              simp [getNode, childGet_childDel_self_of_nodup hnd.1]
            simp [hasNode, this]
        · simp [getNode, hcg, hcne] at hg

theorem any_childSet {α β : Type} [DecidableEq α]
    {cs : List (α × Node α β)} {k a : α} (hka : k ≠ a) (n : Node α β) :
    ((childSet cs k n).any fun x => decide (x.1 = a)) =
      (cs.any fun x => decide (x.1 = a)) := by
  induction cs with
  | nil => simp [childSet, hka]
  | cons x rest ih =>
    obtain ⟨b, c⟩ := x
    by_cases hb : b = k
    · subst hb
      simp [childSet]
    · simp [childSet, hb, ih]

theorem stepsNodup_childSet {α β : Type} [DecidableEq α]
    {cs : List (α × Node α β)} {s : α} (n : Node α β)
    (h : stepsNodup cs = true) : stepsNodup (childSet cs s n) = true := by
  induction cs with
  | nil => simp [childSet, stepsNodup]
  | cons x rest ih =>
    obtain ⟨a, b⟩ := x
    simp only [stepsNodup, Bool.and_eq_true, Bool.not_eq_true'] at h
    by_cases ha : a = s
    · subst ha
      simp [childSet, stepsNodup, h.1, h.2]
    · have hsa : s ≠ a := fun hh => ha hh.symm
      simp [childSet, ha, stepsNodup, any_childSet hsa n, h.1, ih h.2]

theorem nodupKids_childSet {α β : Type} [DecidableEq α]
    {cs : List (α × Node α β)} {s : α} {n : Node α β}
    (hk : nodupKids cs = true) (hn : nodupSteps n = true) :
    nodupKids (childSet cs s n) = true := by
  induction cs with
  | nil => simp [childSet, nodupKids, hn]
  | cons x rest ih =>
    obtain ⟨a, b⟩ := x
    simp only [nodupKids, Bool.and_eq_true] at hk
    by_cases ha : a = s
    · simp [childSet, ha, nodupKids, hn, hk.2]
    · simp [childSet, ha, nodupKids, hk.1, ih hk.2]

/-- `_set` preserves the distinct-steps representation invariant. -/
theorem nodupSteps_setPath {α β : Type} [DecidableEq α]
    (p : List α) (t : Node α β) (v : β) (oim cc : Bool)
    (h : nodupSteps t = true) : nodupSteps (setPath t p v oim cc) = true := by
  induction p generalizing t with
  | nil =>
    cases t with
    | mk val cs =>
      cases cc with
      | true => simp [setPath, nodupSteps, stepsNodup, nodupKids]
      | false => simpa [setPath, nodupSteps] using h
  | cons s rest ih =>
    cases t with
    | mk val cs =>
      rw [setPath, nodupSteps]
      simp only [nodupSteps, Bool.and_eq_true] at h
      have hchild : nodupSteps
          (setPath ((childGet cs s).getD (.mk none [])) rest v oim cc) = true := by
        cases hcg : childGet cs s with
        | none =>
          simp only [hcg, Option.getD_none]
          exact ih _ (by simp [nodupSteps, stepsNodup, nodupKids])
        | some c =>
          simp only [hcg, Option.getD_some]
          exact ih c (nodupSteps_child h.2 hcg)
      simp [stepsNodup_childSet _ h.1, nodupKids_childSet h.2 hchild]

/-- C4: every sequence of public mutating operations (`set`, slice write,
`setdefault`, `delete`, slice delete, `pop`, `popitem`, `update`)
preserves the pruning invariant — no reachable node has ABSENT value and
no children (the root, which always exists as the `Node` at the top, is
exempt as in the Python implementation); and after `set(k, v)` followed by
`delete(k)` on a trie in which no stored key extends `k`
(`has_subtrie(k)` is false), `has_node(k) == 0`. -/
theorem ops_preserve_invariant {α β : Type} [DecidableEq α]
    (t : Node α β) (ops : List (Op α β)) (k : List α) (v : β)
    (hinv : invB t = true) (hnd : nodupSteps t = true)
    (hsub : hasSubtrie t k = false) :
    invB (applyOps t ops) = true ∧
    ∃ t', delAux (setPath t k v false false) k false = .ok t' ∧
      hasNode t' k = 0 := by
  constructor
  · clear hsub hnd
    induction ops generalizing t with
    | nil => simpa [applyOps] using hinv
    | cons op rest ih =>
      have hstep : applyOps t (op :: rest) = applyOps (applyOp t op) rest := by
        simp [applyOps]
      rw [hstep]
      exact ih (applyOp t op) (invB_applyOp t op hinv)
  · exact delAux_clears_leaf k (setPath t k v false false) v
      (nodupSteps_setPath k t v false false hnd)
      (getNode_setPath_of_no_subtrie k t v hsub)

/-- Witness for C4 at a concrete input: the trie `{["a","x"] -> 7}`; the
ops sequence sets and pops keys; the invariant is preserved and the
set-then-delete of `["a","b"]` (which no stored key extends) leaves
`has_node == 0`. -/
theorem ops_preserve_invariant_witness :
    invB (applyOps (setPath (.mk none [] : Node String Nat) ["a", "x"] 7
      false false)
      [.set ["a", "b"] 1, .del ["a", "b"], .popitem]) = true ∧
    ∃ t', delAux (setPath (setPath (.mk none [] : Node String Nat)
        ["a", "x"] 7 false false) ["a", "b"] 2 false false)
        ["a", "b"] false = .ok t' ∧
      hasNode t' ["a", "b"] = 0 := by
  have h := ops_preserve_invariant
    (setPath (.mk none [] : Node String Nat) ["a", "x"] 7 false false)
    [.set ["a", "b"] 1, .del ["a", "b"], .popitem] ["a", "b"] 2
    rfl rfl rfl
  exact h

/-! ### Round trip of the serialization codec (C2) -/

theorem pop1_cons {α β : Type} (f : α × Node α β)
    (fr : List (α × Node α β)) (root : Node α β) :
    pop1 ⟨f :: fr, root⟩ = attachTop ⟨fr, root⟩ f.1 f.2 := by
  obtain ⟨s, c⟩ := f
  cases fr with
  | nil => rfl
  | cons g fr' =>
    obtain ⟨s', p⟩ := g
    rfl

theorem collapse_pop1 {α β : Type} (st : DStack α β) :
    collapse (pop1 st) = collapse st := by
  obtain ⟨fr, root⟩ := st
  cases fr with
  | nil => rfl
  | cons f fr' =>
    obtain ⟨s, c⟩ := f
    cases fr' with
    | nil => rfl
    | cons g fr'' =>
      obtain ⟨s', p⟩ := g
      rfl

theorem collapse_popN {α β : Type} (n : Nat) (st : DStack α β) :
    collapse (popN n st) = collapse st := by
  induction n generalizing st with
  | zero => rfl
  | succ k ih => rw [popN, ih, collapse_pop1]

theorem popN_add {α β : Type} (n m : Nat) (st : DStack α β) :
    popN m (popN n st) = popN (n + m) st := by
  induction n generalizing st with
  | zero => rw [popN, Nat.zero_add]
  | succ k ih =>
    rw [popN, ih, show k + 1 + m = (k + m) + 1 by omega, popN]

theorem pushSteps_root {α β : Type} (st : DStack α β) (steps : List α) :
    (pushSteps st steps).root = st.root := by
  induction steps generalizing st with
  | nil => rfl
  | cons s rest ih => rw [pushSteps, List.foldl_cons, ← pushSteps, ih]; rfl

theorem pushSteps_snoc {α β : Type} (st : DStack α β) (ps : List α) (s : α) :
    pushSteps st (ps ++ [s]) = pushStep (pushSteps st ps) s := by
  rw [pushSteps, List.foldl_append]
  rfl

theorem attachAll_frames {α β : Type} (cs : List (α × Node α β)) :
    ∀ (s : α) (val : Option β) (ks fr : List (α × Node α β))
      (root : Node α β),
      attachAll ⟨(s, .mk val ks) :: fr, root⟩ cs =
        ⟨(s, .mk val (ks ++ cs)) :: fr, root⟩ := by
  induction cs with
  | nil => intro s val ks fr root; simp [attachAll]
  | cons c rest ih =>
    intro s val ks fr root
    rw [attachAll, List.foldl_cons, ← attachAll]
    have h1 : attachTop ⟨(s, Node.mk val ks) :: fr, root⟩ c.1 c.2 =
        ⟨(s, Node.mk val (ks ++ [c])) :: fr, root⟩ := by
      simp [attachTop, addChild]
    rw [h1, ih]
    simp

theorem attachAll_root {α β : Type} (cs : List (α × Node α β)) :
    ∀ (val : Option β) (ks : List (α × Node α β)),
      attachAll ⟨[], .mk val ks⟩ cs = ⟨[], .mk val (ks ++ cs)⟩ := by
  induction cs with
  | nil => intro val ks; simp [attachAll]
  | cons c rest ih =>
    intro val ks
    rw [attachAll, List.foldl_cons, ← attachAll]
    have h1 : attachTop ⟨[], Node.mk val ks⟩ c.1 c.2 =
        ⟨[], Node.mk val (ks ++ [c])⟩ := by
      simp [attachTop, addChild]
    rw [h1, ih]
    simp

theorem goSteps_desc {α β : Type} (v : β) :
    ∀ (steps : List α) (st : DStack α β) (rest : List (Entry α β)),
      goSteps steps.length (steps.map .step ++ .val v :: rest) st =
        goEntries rest (setTopValue (pushSteps st steps) v) := by
  intro steps
  induction steps with
  | nil => intro st rest; rfl
  | cons s steps' ih =>
    intro st rest
    have h0 : goSteps (s :: steps').length
        ((s :: steps').map .step ++ .val v :: rest) st =
        goSteps steps'.length (steps'.map .step ++ .val v :: rest)
          (pushStep st s) := rfl
    rw [h0, ih]
    rfl

theorem upsPos_cons_up {α β : Type} {n : Nat} {rest : List (Cmd α β)}
    (h : upsPos (.up n :: rest)) : 0 < n ∧ upsPos rest :=
  ⟨h n (List.mem_cons_self _ _),
   fun k hk => h k (List.mem_cons_of_mem _ hk)⟩

theorem upsPos_cons_desc {α β : Type} {steps : List α} {v : β}
    {rest : List (Cmd α β)} (h : upsPos (.desc steps v :: rest)) :
    upsPos rest :=
  fun k hk => h k (List.mem_cons_of_mem _ hk)

/-- The flat pickle stream decodes exactly as the command stream does
(for streams whose `up` counts are positive, as `__getstate__` emits). -/
theorem flatten_bridge {α β : Type} :
    ∀ (cmds : List (Cmd α β)) (st : DStack α β), upsPos cmds →
      goEntries (flattenState cmds) st = some (goCmds cmds st)
  | [], st, _ => rfl
  | .desc steps v :: rest, st, h => by
    have hf : flattenState (Cmd.desc steps v :: rest) =
        .num steps.length ::
          (steps.map .step ++ [.val v] ++ flattenState rest) := rfl
    rw [hf]
    have hg : goEntries (Entry.num (steps.length : Int) ::
        (steps.map .step ++ [.val v] ++ flattenState rest)) st =
        goSteps ((steps.length : Int)).toNat
          (steps.map .step ++ [.val v] ++ flattenState rest) st := by
      rw [goEntries, if_neg (by omega)]
    rw [hg, Int.toNat_natCast, List.append_assoc, List.singleton_append,
      goSteps_desc, flatten_bridge rest _ (upsPos_cons_desc h)]
    rfl
  | [.up n], st, _ => by
    have hf : flattenState [Cmd.up n] = ([] : List (Entry α β)) := rfl
    rw [hf]
    have : goCmds [Cmd.up n] st = collapse (popN n st) := rfl
    rw [this, collapse_popN]
    rfl
  | .up n :: .up m :: rest, st, h => by
    have hf : flattenState (Cmd.up n :: Cmd.up m :: rest) =
        flattenState (Cmd.up (n + m) :: rest) := rfl
    have hpos : upsPos (Cmd.up (n + m) :: rest) := by
      intro k hk
      rcases List.mem_cons.mp hk with hk | hk
      · have := (upsPos_cons_up h).1
        simp only [Cmd.up.injEq] at hk
        omega
      · exact (upsPos_cons_up (upsPos_cons_up h).2).2 k hk
    rw [hf, flatten_bridge (Cmd.up (n + m) :: rest) st hpos]
    have : goCmds (Cmd.up (n + m) :: rest) st =
        goCmds (Cmd.up n :: Cmd.up m :: rest) st := by
      show goCmds rest (popN (n + m) st) =
        goCmds rest (popN m (popN n st))
      rw [popN_add]
    rw [this]
  | .up n :: .desc steps v :: rest, st, h => by
    have hn : 0 < n := (upsPos_cons_up h).1
    have hf : flattenState (Cmd.up n :: Cmd.desc steps v :: rest) =
        .num (-(n : Int)) :: .num steps.length ::
          (steps.map .step ++ [.val v] ++ flattenState rest) := rfl
    rw [hf]
    have hg1 : goEntries (Entry.num (-(n : Int)) :: Entry.num (steps.length : Int) ::
        (steps.map .step ++ [.val v] ++ flattenState rest)) st =
        goEntries (Entry.num (steps.length : Int) ::
          (steps.map .step ++ [.val v] ++ flattenState rest))
          (popN (-(-(n : Int))).toNat st) := by
      rw [goEntries, if_pos (by omega)]
    have htn : (-(-(n : Int))).toNat = n := by omega
    rw [hg1, htn]
    have hg2 : goEntries (Entry.num (steps.length : Int) ::
        (steps.map .step ++ [.val v] ++ flattenState rest)) (popN n st) =
        goSteps ((steps.length : Int)).toNat
          (steps.map .step ++ [.val v] ++ flattenState rest) (popN n st) := by
      rw [goEntries, if_neg (by omega)]
    rw [hg2, Int.toNat_natCast, List.append_assoc, List.singleton_append,
      goSteps_desc,
      flatten_bridge rest _ (upsPos_cons_desc (upsPos_cons_up h).2)]
    rfl
termination_by cmds _ _ => cmds.length
decreasing_by all_goals simp <;> omega

mutual
/-- Every `up` command `encAux` emits is `up 1`. -/
theorem upsPos_encAux {α β : Type} :
    ∀ (ps : List α) (n : Node α β), upsPos (encAux ps n)
  | ps, .mk (some v) cs => by
    intro k hk
    have henc : encAux ps (Node.mk (some v) cs) =
        .desc ps v :: (encKids cs ++ [.up 1]) := rfl
    rw [henc] at hk
    rcases List.mem_cons.mp hk with h | h
    · simp at h
    · rcases List.mem_append.mp h with h | h
      · exact upsPos_encKids cs k h
      · simp only [List.mem_singleton, Cmd.up.injEq] at h
        omega
  | _, .mk none [] => by
    intro k hk
    simp [encAux] at hk
  | ps, .mk none (c :: cs) => by
    intro k hk
    rw [encAux.eq_3, List.append_assoc] at hk
    rcases List.mem_append.mp hk with h | h
    · exact upsPos_encAux (ps ++ [c.1]) c.2 k h
    · rcases List.mem_append.mp h with h | h
      · exact upsPos_encKids cs k h
      · simp only [List.mem_singleton, Cmd.up.injEq] at h
        omega
termination_by ps n => sizeOf n
decreasing_by
  · simp [Node.mk.sizeOf_spec] <;> omega
  · exact sizeOf_snd_lt_of_mem_children (List.mem_cons_self _ _)
  · simp [Node.mk.sizeOf_spec] <;> omega

/-- Every `up` command `encKids` emits is `up 1`. -/
theorem upsPos_encKids {α β : Type} :
    ∀ (cs : List (α × Node α β)), upsPos (encKids cs)
  | [] => by
    intro k hk
    simp [encKids] at hk
  | c :: cs => by
    intro k hk
    have henc : encKids (c :: cs) = encAux [c.1] c.2 ++ encKids cs := rfl
    rw [henc] at hk
    rcases List.mem_append.mp hk with h | h
    · exact upsPos_encAux [c.1] c.2 k h
    · exact upsPos_encKids cs k h
termination_by cs => sizeOf cs
decreasing_by
  · cases c; simp [Prod.mk.sizeOf_spec] <;> omega
  · simp <;> omega
end

mutual
/-- The decoding of one subtree's command block: replaying
`encAux (ps' ++ [s]) n` from any stack pushes plain frames for `ps'` and
hangs the (faithfully rebuilt) `n` as a new child `s` of the innermost
frame. -/
theorem goCmds_encAux {α β : Type} :
    ∀ (n : Node α β), invB n = true → n.nonempty = true →
      ∀ (ps' : List α) (s : α) (rest : List (Cmd α β)) (st : DStack α β),
        goCmds (encAux (ps' ++ [s]) n ++ rest) st =
          goCmds rest (attachTop (pushSteps st ps') s n)
  | .mk (some v) cs, hinv, _, ps', s, rest, st => by
    have hks : invKids cs = true := by simpa [invB] using hinv
    have henc : encAux (ps' ++ [s]) (Node.mk (some v) cs) ++ rest =
        .desc (ps' ++ [s]) v :: ((encKids cs ++ [.up 1]) ++ rest) := by
      rw [show encAux (ps' ++ [s]) (Node.mk (some v) cs) =
        .desc (ps' ++ [s]) v :: (encKids cs ++ [.up 1]) from rfl]
      rfl
    rw [henc]
    have hstep : goCmds
        (Cmd.desc (ps' ++ [s]) v :: ((encKids cs ++ [.up 1]) ++ rest)) st =
        goCmds (encKids cs ++ ([.up 1] ++ rest))
          (setTopValue (pushSteps st (ps' ++ [s])) v) := by
      rw [List.append_assoc]
      rfl
    rw [hstep]
    have hst1 : setTopValue (pushSteps st (ps' ++ [s])) v =
        ⟨(s, .mk (some v) []) :: (pushSteps st ps').frames,
          (pushSteps st ps').root⟩ := by
      rw [pushSteps_snoc]
      rfl
    rw [hst1, goCmds_encKids cs hks ([Cmd.up 1] ++ rest), attachAll_frames,
      List.nil_append]
    have hup : goCmds ([Cmd.up 1] ++ rest)
        (⟨(s, Node.mk (some v) cs) :: (pushSteps st ps').frames,
          (pushSteps st ps').root⟩ : DStack α β) =
        goCmds rest
          (pop1 ⟨(s, Node.mk (some v) cs) :: (pushSteps st ps').frames,
            (pushSteps st ps').root⟩) := rfl
    rw [hup, pop1_cons]
  | .mk none [], _, hne, _, _, _, _ => by
    simp [Node.nonempty] at hne
  | .mk none ((cstep, cnode) :: cs), hinv, _, ps', s, rest, st => by
    have hks : invKids ((cstep, cnode) :: cs) = true := by
      simpa [invB] using hinv
    have hparts : cnode.nonempty = true ∧ invB cnode = true ∧
        invKids cs = true := by
      simpa [invKids, Bool.and_eq_true, and_assoc] using hks
    have hgoal : encAux (ps' ++ [s]) (Node.mk none ((cstep, cnode) :: cs))
        ++ rest =
        encAux ((ps' ++ [s]) ++ [cstep]) cnode ++
          (encKids cs ++ ([Cmd.up 1] ++ rest)) := by
      rw [encAux.eq_3]
      simp only [List.append_assoc]
    rw [hgoal,
      goCmds_encAux cnode hparts.2.1 hparts.1 (ps' ++ [s]) cstep
        (encKids cs ++ ([Cmd.up 1] ++ rest)) st]
    have hst2 : attachTop (pushSteps st (ps' ++ [s])) cstep cnode =
        ⟨(s, .mk none [(cstep, cnode)]) :: (pushSteps st ps').frames,
          (pushSteps st ps').root⟩ := by
      rw [pushSteps_snoc]
      rfl
    rw [hst2, goCmds_encKids cs hparts.2.2 ([Cmd.up 1] ++ rest),
      attachAll_frames]
    have hup : goCmds ([Cmd.up 1] ++ rest)
        (⟨(s, Node.mk none ([(cstep, cnode)] ++ cs)) ::
            (pushSteps st ps').frames,
          (pushSteps st ps').root⟩ : DStack α β) =
        goCmds rest
          (pop1 ⟨(s, Node.mk none ((cstep, cnode) :: cs)) ::
              (pushSteps st ps').frames,
            (pushSteps st ps').root⟩) := rfl
    rw [hup, pop1_cons]
termination_by n _ _ _ _ _ _ => sizeOf n
decreasing_by
  · simp [Node.mk.sizeOf_spec] <;> omega
  · simp [Node.mk.sizeOf_spec, Prod.mk.sizeOf_spec] <;> omega
  · simp [Node.mk.sizeOf_spec, Prod.mk.sizeOf_spec] <;> omega

/-- Decoding the concatenated command blocks of a children list attaches
each (faithfully rebuilt) child, in order, to the innermost frame. -/
theorem goCmds_encKids {α β : Type} :
    ∀ (cs : List (α × Node α β)), invKids cs = true →
      ∀ (rest : List (Cmd α β)) (st : DStack α β),
        goCmds (encKids cs ++ rest) st = goCmds rest (attachAll st cs)
  | [], _, rest, st => by
    rw [show encKids ([] : List (α × Node α β)) = [] from rfl,
      List.nil_append]
    rfl
  | (cstep, cnode) :: cs, hks, rest, st => by
    have hparts : cnode.nonempty = true ∧ invB cnode = true ∧
        invKids cs = true := by
      simpa [invKids, Bool.and_eq_true, and_assoc] using hks
    have henc : encKids ((cstep, cnode) :: cs) ++ rest =
        encAux ([] ++ [cstep]) cnode ++ (encKids cs ++ rest) := by
      rw [encKids.eq_2, List.append_assoc]
      rfl
    rw [henc,
      goCmds_encAux cnode hparts.2.1 hparts.1 [] cstep (encKids cs ++ rest) st,
      goCmds_encKids cs hparts.2.2 rest]
    rfl
termination_by cs _ _ _ => sizeOf cs
decreasing_by
  · simp [Prod.mk.sizeOf_spec] <;> omega
  · simp <;> omega
end

/-- C2: `__setstate__` decodes the command stream `__getstate__` produces
back into an equal graph, value-for-value and shape-for-shape (here:
equality of the `Node` values), for graphs of any depth.  The hypothesis
is the data model's pruning invariant — no reachable node with ABSENT
value and no children — which every graph reachable through the public
API satisfies (claim C4); on a graph violating it the Python encoder
itself emits a malformed stream, so the invariant is exactly the domain
on which the codec pair is meaningful. -/
theorem setstate_getstate {α β : Type} (n : Node α β)
    (hinv : invB n = true) : setstate (getstate n) = some n := by
  rw [setstate, getstate, flatten_bridge (encAux [] n) _ (upsPos_encAux [] n)]
  congr 1
  cases n with
  | mk val cs =>
    cases val with
    | some v =>
      have hks : invKids cs = true := by simpa [invB] using hinv
      have h0 : goCmds (encAux [] (Node.mk (some v) cs))
          (⟨[], .mk none []⟩ : DStack α β) =
          goCmds (encKids cs ++ [Cmd.up 1])
            (⟨[], .mk (some v) []⟩ : DStack α β) := by
        rw [encAux.eq_1]
        rfl
      rw [h0, goCmds_encKids cs hks [Cmd.up 1], attachAll_root]
      rfl
    | none =>
      cases cs with
      | nil => rfl
      | cons c cs' =>
        obtain ⟨cstep, cnode⟩ := c
        have hks : invKids ((cstep, cnode) :: cs') = true := by
          simpa [invB] using hinv
        have hparts : cnode.nonempty = true ∧ invB cnode = true ∧
            invKids cs' = true := by
          simpa [invKids, Bool.and_eq_true, and_assoc] using hks
        have hgoal : encAux [] (Node.mk none ((cstep, cnode) :: cs')) =
            encAux ([] ++ [cstep]) cnode ++ (encKids cs' ++ [Cmd.up 1]) := by
          rw [encAux.eq_3]
          simp only [List.append_assoc]
        rw [hgoal,
          goCmds_encAux cnode hparts.2.1 hparts.1 [] cstep
            (encKids cs' ++ [Cmd.up 1]) ⟨[], .mk none []⟩]
        have hat : attachTop
            (pushSteps (⟨[], .mk none []⟩ : DStack α β) []) cstep cnode =
            ⟨[], .mk none [(cstep, cnode)]⟩ := rfl
        rw [hat, goCmds_encKids cs' hparts.2.2 [Cmd.up 1], attachAll_root]
        rfl

/-- Witness for C2 at a concrete input: the two-key example trie
satisfies the invariant (by evaluation) and round-trips. -/
theorem setstate_getstate_witness :
    invB exTrieFooBar = true ∧
    setstate (getstate exTrieFooBar) = some exTrieFooBar :=
  ⟨rfl, setstate_getstate exTrieFooBar rfl⟩

end Pygtrie
